import Mathlib

/-!
# Verification of the starlite-multipart sans-I/O multipart codec

Shallow embedding of the repository's decoder state machine
(`src/starlite_multipart/decoder.py`, identical to the snapshot in
`src/src/multipart.py`), the header utilities (`src/src/utils.py`), the
options-header parser (`src/src/header_parser.py`) and the encoder
(`src/starlite_multipart/encoder.py`).

Representation choices:
* Python `bytes`/`bytearray` are `List Nat` (one `Nat` per byte, values < 256
  by construction of all inputs used).
* Python `str` is `List Nat` (one `Nat` per Unicode code point).  All strings
  the decoder ever produces come from latin-1 decoding, so their code points
  are < 256; the Unicode-dependent character classes (`\s`, `\d`, `str.strip`,
  `str.lower`) are modelled exactly on code points < 256, which covers every
  value the embedded code can encounter from byte input.
* Python exceptions become an error type `PyErr` and `Except`.
* The three regular expressions of the decoder and the two of the options
  parser are embedded as explicit backtracking matchers specialised to the
  concrete patterns compiled by the source.
-/

namespace SM

/-- Bytes: one `Nat` per byte. -/
abbrev Bytes := List Nat

/-- Python strings: one `Nat` per Unicode code point. -/
abbrev PyStr := List Nat

/-- Code points of a Lean string literal (all literals used are ASCII or BMP). -/
def S (s : String) : List Nat := s.toList.map (fun c => c.toNat)

/-- `pat` is a prefix of `s` (Python `bytes.startswith` / anchored literal match). -/
def startsWith : List Nat → List Nat → Bool
  | [], _ => true
  | _ :: _, [] => false
  | p :: ps, s :: ss => p = s && startsWith ps ss

/-- Does `pat` occur as a contiguous sublist of `s`?  (`bytes.find(pat) != -1`.) -/
def containsSub (s pat : List Nat) : Bool :=
  startsWith pat s || match s with
    | [] => false
    | _ :: ss => containsSub ss pat

/-- Length of the longest prefix of `s` all of whose elements satisfy `p`
(a greedy `[...]*` character-class run). -/
def runLength (p : Nat → Bool) : List Nat → Nat
  | [] => 0
  | c :: cs => if p c then runLength p cs + 1 else 0

/-- Last index at which byte `b` occurs in `s` (`bytes.rindex`). -/
def lastIndexOf (b : Nat) : List Nat → Option Nat
  | [] => none
  | c :: cs =>
    match lastIndexOf b cs with
    | some i => some (i + 1)
    | none => if c = b then some 0 else none

/-- Ordered-dictionary lookup (`dict.__getitem__` / `dict.get`). -/
def dictGet {α : Type} (d : List (PyStr × α)) (k : PyStr) : Option α :=
  match d with
  | [] => none
  | (k', v) :: rest => if k' = k then some v else dictGet rest k

/-- Ordered-dictionary assignment: overwrite in place if the key exists
(keeping its position, as Python dicts do), else append. -/
def dictSet {α : Type} (d : List (PyStr × α)) (k : PyStr) (v : α) :
    List (PyStr × α) :=
  match d with
  | [] => [(k, v)]
  | (k', v') :: rest =>
    if k' = k then (k', v) :: rest else (k', v') :: dictSet rest k v

/-- Whitespace bytes for the bytes-pattern class `\s`:
space, tab, newline, carriage return, vertical tab, form feed. -/
def isBytesWs (c : Nat) : Bool :=
  c = 32 || c = 9 || c = 10 || c = 13 || c = 11 || c = 12

/-- The byte class `[^\S\n\r]` of the boundary patterns: whitespace bytes other
than `\n` and `\r`, i.e. space, tab, vertical tab, form feed. -/
def isBndWs (c : Nat) : Bool :=
  c = 32 || c = 9 || c = 11 || c = 12

/-- Code points < 256 for which Python's `str.isspace()` holds (the whitespace
set used by `str.strip()` and by `\s` in string patterns). -/
def isStrWs (c : Nat) : Bool :=
  c = 32 || c = 9 || c = 10 || c = 13 || c = 11 || c = 12 ||
  c = 28 || c = 29 || c = 30 || c = 31 || c = 133 || c = 160

/-- ASCII decimal digits (the `\d` class; the embedded strings are latin-1
decoded, and no code point in 128..255 is a Unicode digit). -/
def isDigit (c : Nat) : Bool := 48 ≤ c && c ≤ 57

/-- `str.lower()` on code points < 256: ASCII `A`-`Z` and latin-1 `À`-`Þ`
(except `×`) map down by 32; everything else in range is fixed. -/
def lowerChar (c : Nat) : Nat :=
  if 65 ≤ c && c ≤ 90 then c + 32
  else if 192 ≤ c && c ≤ 222 && c ≠ 215 then c + 32
  else c

/-- `str.lower()` (restricted to code points < 256, see `lowerChar`). -/
def strLower (s : PyStr) : PyStr := s.map lowerChar

/-- `bytes.strip()`: strip leading and trailing bytes in ` \t\n\r\x0b\x0c`. -/
def bytesStrip (s : Bytes) : Bytes :=
  ((s.dropWhile (fun c => isBytesWs c)).reverse.dropWhile
    (fun c => isBytesWs c)).reverse

/-- `str.strip()` (restricted to code points < 256, see `isStrWs`). -/
def strStrip (s : PyStr) : PyStr :=
  ((s.dropWhile (fun c => isStrWs c)).reverse.dropWhile
    (fun c => isStrWs c)).reverse

end SM

namespace SM

/-! ## The decoder's regular expressions

`decoder.py` compiles (with `LINE_BREAK`, `BLANK_LINE_RE` and
`SEARCH_BUFFER_LENGTH` imported from a constants module that is not part of
`src/`; their values are modelled from the spec, which gives the blank-line
alternatives `\r\n\r\n`, `\r\r`, `\n\n`, describes `LINE_BREAK` as "tolerate
any single line-ending convention" (`\r\n|\n|\r`) and gives the slack constant
as 8 bytes):

* `preamble_re = LINE_BREAK? -- boundary ( -- [^\S\n\r]* LINE_BREAK? | [^\S\n\r]* LINE_BREAK )`
* `boundary_re = LINE_BREAK  -- boundary ( -- [^\S\n\r]* LINE_BREAK? | [^\S\n\r]* LINE_BREAK )`

The matchers below implement exactly the backtracking behaviour of these
patterns: alternatives are tried left to right, `*` is greedy (the involved
character classes are disjoint from what follows, so greedy consumption never
needs to back off), and `re.search(s, pos)` returns the leftmost position
`≥ pos` at which a match attempt succeeds. -/

/-- Modelled from the spec: the slack constant `SEARCH_BUFFER_LENGTH`
("a small constant, e.g. 8 bytes") from the absent constants module. -/
def SEARCH_BUFFER_LENGTH : Nat := 8

/-- Greedy match of one `LINE_BREAK` (`\r\n|\n|\r`) at the head of `s`,
returning the number of bytes consumed. -/
def matchLB (s : Bytes) : Option Nat :=
  if startsWith [13, 10] s then some 2
  else if startsWith [10] s then some 1
  else if startsWith [13] s then some 1
  else none

/-- Match of `--boundary(--[^\S\n\r]*LINE_BREAK?|[^\S\n\r]*LINE_BREAK)` at the
head of `s`.  Returns `(consumed, isFinal)` where `isFinal` is whether
group 1 starts with `--` (the terminating-boundary form). -/
def delimTail (boundary : Bytes) (s : Bytes) : Option (Nat × Bool) :=
  if startsWith ([45, 45] ++ boundary) s then
    let r := s.drop (2 + boundary.length)
    if startsWith [45, 45] r then
      let r2 := r.drop 2
      let w := runLength isBndWs r2
      let lb := (matchLB (r2.drop w)).getD 0
      some (2 + boundary.length + 2 + w + lb, true)
    else
      let w := runLength isBndWs r
      match matchLB (r.drop w) with
      | some lb => some (2 + boundary.length + w + lb, false)
      | none => none
  else none

/-- Attempt of `preamble_re` anchored at the head of `s`: the leading
`LINE_BREAK?` tries `\r\n`, `\n`, `\r`, then the empty string, each followed
by the delimiter tail. -/
def preambleMatchAt (boundary : Bytes) (s : Bytes) : Option (Nat × Bool) :=
  (if startsWith [13, 10] s then
    (delimTail boundary (s.drop 2)).map (fun x => (x.1 + 2, x.2))
   else none).orElse fun _ =>
  (if startsWith [10] s then
    (delimTail boundary (s.drop 1)).map (fun x => (x.1 + 1, x.2))
   else none).orElse fun _ =>
  (if startsWith [13] s then
    (delimTail boundary (s.drop 1)).map (fun x => (x.1 + 1, x.2))
   else none).orElse fun _ =>
  delimTail boundary s

/-- Attempt of `boundary_re` anchored at the head of `s`: as
`preambleMatchAt` but the leading line break is mandatory. -/
def boundaryMatchAt (boundary : Bytes) (s : Bytes) : Option (Nat × Bool) :=
  (if startsWith [13, 10] s then
    (delimTail boundary (s.drop 2)).map (fun x => (x.1 + 2, x.2))
   else none).orElse fun _ =>
  (if startsWith [10] s then
    (delimTail boundary (s.drop 1)).map (fun x => (x.1 + 1, x.2))
   else none).orElse fun _ =>
  (if startsWith [13] s then
    (delimTail boundary (s.drop 1)).map (fun x => (x.1 + 1, x.2))
   else none)

/-- Modelled from the spec: `BLANK_LINE_RE` of the absent constants module,
"the first blank-line marker (`\r\n\r\n`, `\r\r`, or `\n\n`)"; attempt
anchored at the head of `s`, returning the consumed length. -/
def blankAt (s : Bytes) : Option Nat :=
  if startsWith [13, 10, 13, 10] s then some 4
  else if startsWith [13, 13] s then some 2
  else if startsWith [10, 10] s then some 2
  else none

/-- `re.search(s, pos)` for an anchored attempt function `m`: the leftmost
index `i ≥ pos` (up to and including `s.length`) whose attempt succeeds. -/
def searchAux {α : Type} (m : Bytes → Option α) (s : Bytes) :
    Nat → Nat → Option (Nat × α)
  | _, 0 => none
  | i, fuel + 1 =>
    match m (s.drop i) with
    | some a => some (i, a)
    | none => searchAux m s (i + 1) fuel

/-- `re.search` of an anchored attempt `m` over `s` starting at `pos`. -/
def reSearch {α : Type} (m : Bytes → Option α) (s : Bytes) (pos : Nat) :
    Option (Nat × α) :=
  searchAux m s pos (s.length + 1 - pos)

/-! ## `src/src/utils.py` -/

/-- `get_buffer_last_newline`: the minimum of the last `\n` index and the last
`\r` index, each defaulting to the buffer length when absent. -/
def getBufferLastNewline (buffer : Bytes) : Nat :=
  let lastNl := (lastIndexOf 10 buffer).getD buffer.length
  let lastCr := (lastIndexOf 13 buffer).getD buffer.length
  min lastNl lastCr

/-- Modelled from the spec: `RFC2231_HEADER_CONTINUATION_RE.sub(b" ", data)`
with the pattern (per the spec) "a line break immediately followed by a space
or tab", folded "into a single space"; `re.sub` replaces leftmost
non-overlapping occurrences of `(\r\n|\n|\r)[ \t]` by one space. -/
def foldContinuations : Bytes → Bytes
  | 13 :: 10 :: c :: rest =>
    if c = 32 || c = 9 then 32 :: foldContinuations rest
    else 13 :: foldContinuations (10 :: c :: rest)
  | 13 :: c :: rest =>
    if c = 32 || c = 9 then 32 :: foldContinuations rest
    else 13 :: foldContinuations (c :: rest)
  | 10 :: c :: rest =>
    if c = 32 || c = 9 then 32 :: foldContinuations rest
    else 10 :: foldContinuations (c :: rest)
  | c :: rest => c :: foldContinuations rest
  | [] => []

/-- `bytes.splitlines()`: split at `\r\n`, lone `\r`, lone `\n`; a trailing
terminator produces no trailing empty line. -/
def splitlinesAux : Bytes → Bytes → List Bytes
  | [], acc => if acc = [] then [] else [acc.reverse]
  | 13 :: 10 :: rest, acc => acc.reverse :: splitlinesAux rest []
  | 13 :: rest, acc => acc.reverse :: splitlinesAux rest []
  | 10 :: rest, acc => acc.reverse :: splitlinesAux rest []
  | c :: rest, acc => splitlinesAux rest (c :: acc)

/-- `bytes.splitlines()`. -/
def pySplitlines (s : Bytes) : List Bytes := splitlinesAux s []

/-- The Python exceptions the embedded code can raise, by distinct condition. -/
inductive PyErr where
  /-- `RequestEntityTooLarge` raised by the decoder's append. -/
  | requestEntityTooLarge : PyErr
  /-- `ValueError("Missing Content-Disposition header")`. -/
  | missingContentDisposition : PyErr
  /-- `ValueError` from unpacking a header line with no colon in
  `parse_headers`. -/
  | headerLineNoColon : PyErr
  /-- `LookupError` from `bytes.decode` with an unknown encoding name. -/
  | lookupError : PyErr
  /-- `UnicodeDecodeError` from `bytes.decode` on invalid data. -/
  | unicodeDecodeError : PyErr
  /-- `TypeError` from concatenating `None` with a continuation segment. -/
  | typeError : PyErr
  /-- `UnicodeEncodeError` from `str.encode("latin-1")` on a code point
  above 255 in the encoder. -/
  | unicodeEncodeError : PyErr
  /-- `AttributeError` from `None.encode` in the encoder. -/
  | attributeError : PyErr
  /-- `ValueError("Cannot generate ... in processing_stage ...")` from the
  encoder's stage check. -/
  | sequencingError : PyErr
deriving DecidableEq, Repr

/-- First-colon split of a header line (`str.split(":", 1)`); `none` when the
line has no colon, in which case Python's tuple unpacking raises. -/
def splitFirstColon (line : PyStr) : Option (PyStr × PyStr) :=
  match line with
  | [] => none
  | c :: rest =>
    if c = 58 then some ([], rest)
    else (splitFirstColon rest).map (fun x => (c :: x.1, x.2))

/-- The line-splitting pass of `parse_headers`: split every line at its first
colon, raising (as Python's tuple unpacking does) on a line with none.  The
comprehension in the source computes every split before any dict insertion,
which this left-to-right recursion reproduces. -/
def parseHeaderLines : List Bytes → Except PyErr (List (PyStr × PyStr))
  | [] => Except.ok []
  | l :: rest =>
    match splitFirstColon l with
    | none => Except.error PyErr.headerLineNoColon
    | some nv =>
      match parseHeaderLines rest with
      | Except.error e => Except.error e
      | Except.ok pairs => Except.ok (nv :: pairs)

/-- `parse_headers`: fold RFC 2231 continuation line breaks to a space, split
into lines, skip blank lines, split each line at its first colon (raising when
there is none), strip name and value, and build the dict in order. -/
def parseHeaders (data : Bytes) : Except PyErr (List (PyStr × PyStr)) :=
  let folded := foldContinuations data
  let lines := (pySplitlines folded).filter (fun l => bytesStrip l ≠ [])
  match parseHeaderLines lines with
  | Except.error e => Except.error e
  | Except.ok pairs =>
    Except.ok
      (pairs.foldl (fun d nv => dictSet d (strStrip nv.1) (strStrip nv.2)) [])

end SM

namespace SM

/-! ## `src/src/header_parser.py` -/

/-- Leftmost non-overlapping replacement of the two-code-point pattern
`[a, b]` by `[r]` (`str.replace` for the escape collapses in
`unquote_header_value`). -/
def replacePair (a b r : Nat) : PyStr → PyStr
  | x :: y :: rest =>
    if x = a && y = b then r :: replacePair a b r rest
    else x :: replacePair a b r (y :: rest)
  | s => s

/-- `unquote_header_value`: strip surrounding double quotes and collapse
backslash escapes (`\\` then `\"`), except that a quoted filename starting
with a UNC `\\` prefix is kept verbatim. -/
def unquoteHeaderValue (value : PyStr) (isFilename : Bool := false) : PyStr :=
  match value with
  | [] => []
  | c :: _ =>
    if c = 34 && value.getLast? = some 34 then
      let inner := (value.drop 1).dropLast
      if !isFilename || decide (inner.take 2 ≠ [92, 92]) then
        replacePair 92 34 34 (replacePair 92 92 92 inner)
      else inner
    else value

/-- UTF-8 encoding of one code point (1-4 bytes; code points of the strings
fed to `unquote_to_bytes` are < 256, but the full map is given). -/
def utf8EncodeChar (c : Nat) : Bytes :=
  if c < 128 then [c]
  else if c < 2048 then [192 + c / 64, 128 + c % 64]
  else if c < 65536 then [224 + c / 4096, 128 + c / 64 % 64, 128 + c % 64]
  else [240 + c / 262144, 128 + c / 4096 % 64, 128 + c / 64 % 64, 128 + c % 64]

/-- UTF-8 encoding of a string (`str.encode()` inside `unquote_to_bytes`). -/
def utf8Encode (s : PyStr) : Bytes := s.flatMap utf8EncodeChar

/-- Value of an ASCII hex digit. -/
def hexVal (c : Nat) : Option Nat :=
  if 48 ≤ c && c ≤ 57 then some (c - 48)
  else if 97 ≤ c && c ≤ 102 then some (c - 87)
  else if 65 ≤ c && c ≤ 70 then some (c - 55)
  else none

/-- Percent-decoding pass of `urllib.parse.unquote_to_bytes`: `%XX` with two
hex digits becomes one byte, any other `%` stays literal. -/
def percentDecode : Bytes → Bytes
  | 37 :: h1 :: h2 :: rest =>
    match hexVal h1, hexVal h2 with
    | some v1, some v2 => (v1 * 16 + v2) :: percentDecode rest
    | _, _ => 37 :: percentDecode (h1 :: h2 :: rest)
  | c :: rest => c :: percentDecode rest
  | [] => []

/-- `urllib.parse.unquote_to_bytes` on a `str`: UTF-8 encode, then replace
`%XX` hex escapes. -/
def unquoteToBytes (s : PyStr) : Bytes := percentDecode (utf8Encode s)

/-- Strict UTF-8 decoding of `bs`, prepending to `acc`; rejects truncated
sequences, bad continuation bytes, overlong forms, surrogates and code points
above `U+10FFFF`, as CPython's strict codec does. -/
def utf8DecodeAux : Bytes → PyStr → Option PyStr
  | [], acc => some acc.reverse
  | c :: rest, acc =>
    if c < 128 then utf8DecodeAux rest (c :: acc)
    else if c < 194 then none
    else if c < 224 then
      match rest with
      | c1 :: r1 =>
        if 128 ≤ c1 && c1 < 192 then
          utf8DecodeAux r1 (((c - 192) * 64 + (c1 - 128)) :: acc)
        else none
      | _ => none
    else if c < 240 then
      match rest with
      | c1 :: c2 :: r2 =>
        if 128 ≤ c1 && c1 < 192 && 128 ≤ c2 && c2 < 192 then
          let v := (c - 224) * 4096 + (c1 - 128) * 64 + (c2 - 128)
          if v < 2048 || (55296 ≤ v && v ≤ 57343) then none
          else utf8DecodeAux r2 (v :: acc)
        else none
      | _ => none
    else if c < 245 then
      match rest with
      | c1 :: c2 :: c3 :: r3 =>
        if 128 ≤ c1 && c1 < 192 && 128 ≤ c2 && c2 < 192 &&
            128 ≤ c3 && c3 < 192 then
          let v := (c - 240) * 262144 + (c1 - 128) * 4096 +
            (c2 - 128) * 64 + (c3 - 128)
          if v < 65536 || 1114111 < v then none else utf8DecodeAux r3 (v :: acc)
        else none
      | _ => none
    else none

/-- Strict UTF-8 decoding (`bytes.decode("utf-8")`). -/
def utf8Decode (bs : Bytes) : Option PyStr := utf8DecodeAux bs []

/-- Characters kept by `encodings.normalize_encoding`: ASCII alphanumerics
and the dot. -/
def isEncChar (c : Nat) : Bool :=
  (48 ≤ c && c ≤ 57) || (65 ≤ c && c ≤ 90) || (97 ≤ c && c ≤ 122) || c = 46

/-- Body of codec-name normalization, mirroring CPython's loop: `punct`
records whether the previous character was punctuation, `started` whether any
character has been kept; kept characters are lower-cased and an interior
punctuation run becomes a single underscore. -/
def normalizeEncodingAux (punct started : Bool) : PyStr → PyStr
  | [] => []
  | c :: rest =>
    if isEncChar c then
      (if punct && started then [95, lowerChar c] else [lowerChar c]) ++
        normalizeEncodingAux false true rest
    else normalizeEncodingAux true started rest

/-- Codec-name normalization for `bytes.decode(encoding)` lookup: CPython
lower-cases the name and collapses punctuation runs to underscores before the
alias table is consulted. -/
def normalizeEncoding (enc : PyStr) : PyStr :=
  normalizeEncodingAux false false enc

/-- `bytes.decode(encoding)` for the codecs the multipart flow can name:
UTF-8, latin-1 and ASCII with their common aliases.  An unknown name raises
`LookupError` (in CPython, other installed codecs would resolve; all codecs
the shipped tests and spec exercise are covered, and the claims under
verification only distinguish "decodes" from "raises"). -/
def pyDecode (enc : PyStr) (bs : Bytes) : Except PyErr PyStr :=
  let n := normalizeEncoding enc
  if n = S ("utf_8") || n = S ("utf8") || n = S ("utf") || n = S ("u8") ||
      n = S ("cp65001") then
    match utf8Decode bs with
    | some s => Except.ok s
    | none => Except.error PyErr.unicodeDecodeError
  else if n = S ("latin_1") || n = S ("latin1") || n = S ("latin") || n = S ("l1") ||
      n = S ("iso_8859_1") || n = S ("iso8859_1") || n = S ("8859") ||
      n = S ("cp819") then
    Except.ok bs
  else if n = S ("ascii") || n = S ("us_ascii") || n = S ("646") then
    if bs.all (fun c => c < 128) then Except.ok bs
    else Except.error PyErr.unicodeDecodeError
  else Except.error PyErr.lookupError

end SM

namespace SM

/-- Anchored match of `_option_header_start_mime_type`
(`,\s*([^;,\s]+)([;,]\s*.+)?`): returns the mimetype token and, when present,
the rest group (which, the input having no newline left, always reaches the
end of the string). -/
def matchStartMime (v : PyStr) : Option (PyStr × Option PyStr) :=
  match v with
  | 44 :: rest =>
    let afterWs := rest.drop (runLength isStrWs rest)
    let t := runLength (fun c => !(isStrWs c || c = 59 || c = 44)) afterWs
    if t = 0 then none
    else
      let tok := afterWs.take t
      match afterWs.drop t with
      | [] => some (tok, none)
      | c :: cs =>
        if (c = 59 || c = 44) && cs ≠ [] then some (tok, some (c :: cs))
        else some (tok, none)
  | _ => none

/-- Anchored match of the quoted-string alternative
`"[^"\\]*(?:\\.[^"\\]*)*"` after its opening quote; returns the number of
code points consumed after that quote (closing quote included).  A backslash
escapes any character but a newline; an unterminated string fails. -/
def quotedAux : PyStr → Option Nat
  | [] => none
  | c :: rest =>
    if c = 34 then some 1
    else if c = 92 then
      match rest with
      | [] => none
      | d :: r2 =>
        if d = 10 then none else (quotedAux r2).map (fun n => n + 2)
    else (quotedAux rest).map (fun n => n + 1)

/-- Anchored match of the full quoted-string alternative, returning the total
consumed length (both quotes included). -/
def quotedMatch (s : PyStr) : Option Nat :=
  match s with
  | 34 :: rest => (quotedAux rest).map (fun n => n + 1)
  | _ => none

/-- Lazy `[^\s]*?` up to the next apostrophe: the least `l` such that
position `l` holds an apostrophe and everything before it is non-whitespace. -/
def langScan : PyStr → Option Nat
  | [] => none
  | c :: rest =>
    if c = 39 then some 0
    else if isStrWs c then none
    else (langScan rest).map (fun l => l + 1)

/-- Backtracking core of the `(?P<encoding>[^\s]+?)'(?P<language>[^\s]*?)'`
group: `L` non-whitespace characters of encoding are already consumed and `s`
is what follows; extend lazily until an apostrophe with a successful language
scan follows. -/
def encLangAux : PyStr → Nat → Option (Nat × Nat)
  | [], _ => none
  | c :: rest, l =>
    if c = 39 then
      match langScan rest with
      | some n => some (l, n)
      | none => encLangAux rest (l + 1)
    else if isStrWs c then none
    else encLangAux rest (l + 1)

/-- Anchored match of the optional `encoding'language'` prefix of an extended
(RFC 2231) parameter value; returns `(encoding, language, consumed)`. -/
def matchEncLang (s : PyStr) : Option (PyStr × PyStr × Nat) :=
  match s with
  | [] => none
  | c :: rest =>
    if isStrWs c then none
    else
      (encLangAux rest 1).map (fun x =>
        (s.take x.1, (s.drop (x.1 + 1)).take x.2, x.1 + 1 + x.2 + 1))

/-- Anchored match of the value alternative
`"[^"\\]*(?:\\.[^"\\]*)*"|[^;,]+` (quoted string preferred); returns the raw
matched text (quotes included) and its length. -/
def matchValue (s : PyStr) : Option (PyStr × Nat) :=
  match quotedMatch s with
  | some n => some (s.take n, n)
  | none =>
    let t := runLength (fun c => !(c = 59 || c = 44)) s
    if t = 0 then none else some (s.take t, t)

/-- The named groups and total length of one `_option_header_piece_re`
match. -/
structure PieceM where
  key : PyStr
  count : Option PyStr
  encoding : Option PyStr
  language : Option PyStr
  value : Option PyStr
  len : Nat
deriving Repr, DecidableEq

/-- Key characters: `[^\s;,=*]`. -/
def isKeyChar (c : Nat) : Bool :=
  !(isStrWs c || c = 59 || c = 44 || c = 61 || c = 42)

/-- The `;\\s*,?\\s*` separator prefix of `_option_header_piece_re` after its
leading `;`: skip whitespace, an optional comma, and more whitespace; returns
the remainder and the total consumed length (the `;` included). -/
def pieceSep (rest : PyStr) : PyStr × Nat :=
  let w1 := runLength isStrWs rest
  let r1 := rest.drop w1
  match r1 with
  | 44 :: rr =>
    let w2 := runLength isStrWs rr
    (rr.drop w2, 1 + w1 + 1 + w2)
  | _ => (r1, 1 + w1)

/-- The key group `"[^"\\\\]*(?:\\\\.[^"\\\\]*)*"|[^\\s;,=*]+` (quoted string
preferred): the matched key text and its length, `none` when neither
alternative matches. -/
def pieceKey (r2 : PyStr) : Option (PyStr × Nat) :=
  match quotedMatch r2 with
  | some n => some (r2.take n, n)
  | none =>
    let t := runLength isKeyChar r2
    if t = 0 then none else some (r2.take t, t)

/-- The optional `\\*(?P<count>\\d+)` continuation index: the digits group and
the consumed length. -/
def pieceCount (r3 : PyStr) : Option PyStr × Nat :=
  match r3 with
  | 42 :: rr =>
    let d := runLength isDigit rr
    if d = 0 then (none, 0) else (some (rr.take d), 1 + d)
  | _ => (none, 0)

/-- The optional value tail: `\\*\\s*=` with an optional `encoding'language'`
prefix, or a plain `=`, each followed by an optional quoted or bare value;
returns the `encoding`, `language` and `value` groups with the consumed
length. -/
def pieceValue (r5 : PyStr) :
    Option PyStr × Option PyStr × Option PyStr × Nat :=
  match r5 with
  | 42 :: a =>
    let wA := runLength isStrWs a
    let a1 := a.drop wA
    match a1 with
    | 61 :: a2 =>
      let wB := runLength isStrWs a2
      let a3 := a2.drop wB
      let (e, l, eLen) :=
        match matchEncLang a3 with
        | some (e, l, n) => (some e, some l, n)
        | none => (none, none, 0)
      let a4 := a3.drop eLen
      match matchValue a4 with
      | some (v, n) => (e, l, some v, 1 + wA + 1 + wB + eLen + n)
      | none => (e, l, none, 1 + wA + 1 + wB + eLen)
    | _ => (none, none, none, 0)
  | 61 :: a =>
    let wA := runLength isStrWs a
    let a1 := a.drop wA
    match matchValue a1 with
    | some (v, n) => (none, none, some v, 1 + wA + n)
    | none => (none, none, none, 1 + wA)
  | _ => (none, none, none, 0)

/-- Anchored match of `_option_header_piece_re` (see the source for the
verbose pattern): `;\\s*,?\\s*` then a quoted or bare key, an optional `*N`
continuation index, then optionally `*=` with an optional `encoding'language'`
prefix or a plain `=`, an optional quoted or bare value, and trailing
whitespace.  All trailing parts being optional, the greedy first attempt is
the regex's result whenever the key matches, and the match fails exactly when
the key cannot match after the separator. -/
def matchPiece (r : PyStr) : Option PieceM :=
  match r with
  | 59 :: rest =>
    let (r2, pre) := pieceSep rest
    match pieceKey r2 with
    | none => none
    | some (key, klen) =>
      let r3 := r2.drop klen
      let (count, cntLen) := pieceCount r3
      let r4 := r3.drop cntLen
      let w3 := runLength isStrWs r4
      let r5 := r4.drop w3
      let (enc, lang, val, vLen) := pieceValue r5
      let r6 := r5.drop vLen
      let w4 := runLength isStrWs r6
      some ⟨key, count, enc, lang, val, pre + klen + cntLen + w3 + vLen + w4⟩
  | _ => none

/-- The continuation-encoding resolution of one parameter: the encoding used
to decode this piece's value ("continuations don't have to supply the
encoding after the first line"). -/
def pieceEncoding (g : PieceM) (contEnc : Option PyStr) : Option PyStr :=
  match g.count with
  | none => g.encoding
  | some _ =>
    match g.encoding with
    | none => contEnc
    | some e => some e

/-- The remembered continuation encoding after one parameter (reset when a
key is seen without a continuation index). -/
def pieceContEnc (g : PieceM) (contEnc : Option PyStr) : Option PyStr :=
  match g.count with
  | none => none
  | some _ =>
    match g.encoding with
    | none => contEnc
    | some e => some e

/-- Processing of one matched parameter: unquote the key and lower-case it,
unquote the value (with the filename quirk), percent- and charset-decode
extended values, and store into the ordered options dict — continuations
concatenate onto the previous value (`options.get(option, "")`), a stored
`None` making that concatenation a `TypeError`. -/
def pieceStep (g : PieceM) (options : List (PyStr × Option PyStr))
    (contEnc : Option PyStr) :
    Except PyErr (List (PyStr × Option PyStr)) :=
  let option := strLower (unquoteHeaderValue g.key)
  match g.value with
  | none =>
    Except.ok (if g.count.isSome then options else dictSet options option none)
  | some v0 =>
    match (match pieceEncoding g contEnc with
           | some e =>
             pyDecode e
               (unquoteToBytes (unquoteHeaderValue v0 (option = S ("filename"))))
           | none => Except.ok (unquoteHeaderValue v0 (option = S ("filename")))) with
    | Except.error e => Except.error e
    | Except.ok v2 =>
      if g.count.isSome then
        match dictGet options option with
        | some (some prev) =>
          Except.ok (dictSet options option (some (prev ++ v2)))
        | some none => Except.error PyErr.typeError
        | none => Except.ok (dictSet options option (some v2))
      else Except.ok (dictSet options option (some v2))

/-- The parameter-processing loop of `parse_options_header`: repeatedly match
one piece and process it, threading the options dict and the remembered
continuation encoding. -/
def parsePieces :
    Nat → PyStr → List (PyStr × Option PyStr) → Option PyStr →
    Except PyErr (List (PyStr × Option PyStr))
  | 0, _, options, _ => Except.ok options
  | _ + 1, [], options, _ => Except.ok options
  | fuel + 1, rest, options, contEnc =>
    match matchPiece rest with
    | none => Except.ok options
    | some g =>
      match pieceStep g options contEnc with
      | Except.error e => Except.error e
      | Except.ok options' =>
        parsePieces fuel (rest.drop g.len) options' (pieceContEnc g contEnc)

/-- `parse_options_header`: `None` or empty input gives an empty result; the
value is prefixed with a comma and newlines become commas; the first
mimetype-start match supplies the primary token, and its rest group is parsed
into the options dict. -/
def parseOptionsHeader (value : Option PyStr) :
    Except PyErr (PyStr × List (PyStr × Option PyStr)) :=
  match value with
  | none => Except.ok ([], [])
  | some v =>
    if v = [] then Except.ok ([], [])
    else
      let v2 := 44 :: v.map (fun c => if c = 10 then 44 else c)
      match matchStartMime v2 with
      | none => Except.ok ([], [])
      | some (tok, none) => Except.ok (tok, [])
      | some (tok, some rest) =>
        match parsePieces (rest.length + 1) rest [] none with
        | Except.error e => Except.error e
        | Except.ok opts => Except.ok (tok, opts)

end SM

namespace SM

/-! ## `src/starlite_multipart/decoder.py` -/

/-- The decoder's processing stages (`State` in the source). -/
inductive Stage where
  | preamble : Stage
  | part : Stage
  | data : Stage
  | epilogue : Stage
  | complete : Stage
deriving DecidableEq, Repr

/-- The event union (`src/starlite_multipart/events.py`).  The `name` and
`filename` fields are `Option PyStr` because `extra.get("name", "")` and
`extra["filename"]` can produce Python `None` when the parameter was present
without a value (the dataclass fields are only annotated, not checked). -/
inductive Event where
  | preamble (data : Bytes) : Event
  | field (name : Option PyStr) (headers : List (PyStr × PyStr)) : Event
  | file (name : Option PyStr) (filename : Option PyStr)
      (headers : List (PyStr × PyStr)) : Event
  | data (data : Bytes) (moreData : Bool) : Event
  | epilogue (data : Bytes) : Event
deriving DecidableEq, Repr

/-- `MultipartDecoder`'s mutable state (the two compiled regexes are
determined by `boundary` and are applied through the matchers above). -/
structure Decoder where
  buffer : Bytes
  maxSize : Option Nat
  processingStage : Stage
  messageBoundary : Bytes
  searchPosition : Nat
deriving DecidableEq, Repr

/-- `MultipartDecoder.__init__`. -/
def mkDecoder (boundary : Bytes) (maxSize : Option Nat := none) : Decoder :=
  { buffer := []
    maxSize := maxSize
    processingStage := Stage.preamble
    messageBoundary := boundary
    searchPosition := 0 }

/-- `MultipartDecoder.__call__` (the append operation): a falsy argument
(`None` or empty bytes) does nothing; otherwise the size check runs before
any mutation, so on `RequestEntityTooLarge` the returned state is the
untouched receiver. -/
def decoderCall (d : Decoder) (data : Option Bytes) : Option PyErr × Decoder :=
  match data with
  | none => (none, d)
  | some bs =>
    if bs = [] then (none, d)
    else
      match d.maxSize with
      | some m =>
        if d.buffer.length + bs.length > m then
          (some PyErr.requestEntityTooLarge, d)
        else (none, { d with buffer := d.buffer ++ bs })
      | none => (none, { d with buffer := d.buffer ++ bs })

/-- `MultipartDecoder._process_preamble`. -/
def processPreamble (d : Decoder) : Option Event × Decoder :=
  match reSearch (preambleMatchAt d.messageBoundary) d.buffer
      d.searchPosition with
  | some (s, n, isFinal) =>
    let stage := if isFinal then Stage.epilogue else Stage.part
    (some (Event.preamble (d.buffer.take s)),
      { d with processingStage := stage, buffer := d.buffer.drop (s + n) })
  | none => (none, d)

/-- The truthiness-aware `headers.get("Content-Disposition") or
headers.get("content-disposition")` followed by `if not ...`. -/
def contentDispositionOf (headers : List (PyStr × PyStr)) : Option PyStr :=
  let v :=
    match dictGet headers (S ("Content-Disposition")) with
    | some s => if s = [] then dictGet headers (S ("content-disposition"))
                else some s
    | none => dictGet headers (S ("content-disposition"))
  match v with
  | some s => if s = [] then none else some s
  | none => none

/-- `extra.get("name", "")`: the stored value (which may be `None`) if the
key is present, else the empty string. -/
def extraGetName (extra : List (PyStr × Option PyStr)) : Option PyStr :=
  match dictGet extra (S ("name")) with
  | some v => v
  | none => some []

/-- `MultipartDecoder._process_part`. -/
def processPart (d : Decoder) : Except PyErr (Option Event × Decoder) :=
  match reSearch blankAt d.buffer d.searchPosition with
  | some (s, n) =>
    match parseHeaders (d.buffer.take s) with
    | Except.error e => Except.error e
    | Except.ok headers =>
      let d' := { d with buffer := d.buffer.drop (s + n) }
      match contentDispositionOf headers with
      | none => Except.error PyErr.missingContentDisposition
      | some cd =>
        match parseOptionsHeader (some cd) with
        | Except.error e => Except.error e
        | Except.ok (_, extra) =>
          match dictGet extra (S ("filename")) with
          | some fv =>
            Except.ok
              (some (Event.file (extraGetName extra) fv headers), d')
          | none =>
            Except.ok (some (Event.field (extraGetName extra) headers), d')
  | none => Except.ok (none, d)

/-- `MultipartDecoder._process_data`: the boundary regex is only run when
the literal `--boundary` occurs in the buffer; without a full delimiter
match, everything up to the last line break is emitted as a partial chunk
(suppressed when empty). -/
def processData (d : Decoder) : Option Event × Decoder :=
  let mtch :=
    if containsSub d.buffer ([45, 45] ++ d.messageBoundary) then
      reSearch (boundaryMatchAt d.messageBoundary) d.buffer 0
    else none
  match mtch with
  | some (s, n, isFinal) =>
    let stage := if isFinal then Stage.epilogue else Stage.part
    (some (Event.data (d.buffer.take s) false),
      { d with processingStage := stage, buffer := d.buffer.drop (s + n) })
  | none =>
    let len := getBufferLastNewline d.buffer
    let dt := d.buffer.take len
    let d' := { d with buffer := d.buffer.drop len }
    (if dt = [] then none else some (Event.data dt true), d')

/-- `MultipartDecoder.next_event`. -/
def nextEvent (d : Decoder) : Except PyErr (Option Event × Decoder) :=
  match d.processingStage with
  | Stage.complete => Except.ok (none, d)
  | Stage.preamble =>
    match processPreamble d with
    | (some ev, d') => Except.ok (some ev, { d' with searchPosition := 0 })
    | (none, d') =>
      Except.ok (none,
        { d' with searchPosition :=
            d.buffer.length - d.messageBoundary.length - SEARCH_BUFFER_LENGTH })
  | Stage.part =>
    match processPart d with
    | Except.error e => Except.error e
    | Except.ok (some ev, d') =>
      Except.ok (some ev,
        { d' with searchPosition := 0, processingStage := Stage.data })
    | Except.ok (none, d') =>
      Except.ok (none,
        { d' with searchPosition := d.buffer.length - SEARCH_BUFFER_LENGTH })
  | Stage.data => Except.ok (processData d)
  | Stage.epilogue =>
    Except.ok (some (Event.epilogue d.buffer),
      { d with buffer := [], processingStage := Stage.complete })

/-! ## `src/starlite_multipart/encoder.py` -/

/-- `str.encode("latin-1")`: identity on code points < 256, otherwise a
`UnicodeEncodeError`. -/
def latin1Encode (s : PyStr) : Except PyErr Bytes :=
  if s.all (fun c => c < 256) then Except.ok s
  else Except.error PyErr.unicodeEncodeError

/-- `MultipartEncoder`'s state. -/
structure Encoder where
  messageBoundary : Bytes
  processingStage : Stage
deriving DecidableEq, Repr

/-- `MultipartEncoder.__init__`. -/
def mkEncoder (boundary : Bytes) : Encoder :=
  { messageBoundary := boundary, processingStage := Stage.preamble }

/-- The header lines an encoder emits for a field/file event: every header
whose lower-cased name is not `content-disposition`, as `name: value\r\n`. -/
def encodeHeaders (headers : List (PyStr × PyStr)) : Except PyErr Bytes :=
  match headers with
  | [] => Except.ok []
  | (n, v) :: rest =>
    match encodeHeaders rest with
    | Except.error e => Except.error e
    | Except.ok tail =>
      if strLower n = S ("content-disposition") then Except.ok tail
      else
        match latin1Encode (n ++ S (": ") ++ v ++ [13, 10]) with
        | Except.error e => Except.error e
        | Except.ok line => Except.ok (line ++ tail)

/-- `MultipartEncoder.send_event`: emit the bytes for one event after the
stage check, advancing the stage (an invalid event/stage combination raises
the sequencing `ValueError`). -/
def sendEvent (e : Encoder) (ev : Event) : Except PyErr (Bytes × Encoder) :=
  match ev with
  | Event.preamble dt =>
    if e.processingStage = Stage.preamble then
      Except.ok (dt, { e with processingStage := Stage.part })
    else Except.error PyErr.sequencingError
  | Event.field name headers =>
    if e.processingStage = Stage.preamble || e.processingStage = Stage.part ||
        e.processingStage = Stage.data then
      match name with
      | none => Except.error PyErr.attributeError
      | some nm =>
        match latin1Encode nm with
        | Except.error err => Except.error err
        | Except.ok nmB =>
          match encodeHeaders headers with
          | Except.error err => Except.error err
          | Except.ok hdrB =>
            Except.ok
              ([13, 10, 45, 45] ++ e.messageBoundary ++ [13, 10] ++
                S ("Content-Disposition: form-data; name=") ++ [34] ++ nmB ++
                [34] ++ [13, 10] ++ hdrB ++ [13, 10],
                { e with processingStage := Stage.data })
    else Except.error PyErr.sequencingError
  | Event.file name filename headers =>
    if e.processingStage = Stage.preamble || e.processingStage = Stage.part ||
        e.processingStage = Stage.data then
      match name with
      | none => Except.error PyErr.attributeError
      | some nm =>
        match latin1Encode nm with
        | Except.error err => Except.error err
        | Except.ok nmB =>
          match filename with
          | none => Except.error PyErr.attributeError
          | some fn =>
            match latin1Encode fn with
            | Except.error err => Except.error err
            | Except.ok fnB =>
              match encodeHeaders headers with
              | Except.error err => Except.error err
              | Except.ok hdrB =>
                Except.ok
                  ([13, 10, 45, 45] ++ e.messageBoundary ++ [13, 10] ++
                    S ("Content-Disposition: form-data; name=") ++ [34] ++
                    nmB ++ [34] ++ S ("; filename=") ++ [34] ++ fnB ++ [34] ++
                    [13, 10] ++ hdrB ++ [13, 10],
                    { e with processingStage := Stage.data })
    else Except.error PyErr.sequencingError
  | Event.data dt _ =>
    if e.processingStage = Stage.data then Except.ok (dt, e)
    else Except.error PyErr.sequencingError
  | Event.epilogue dt =>
    Except.ok ([13, 10, 45, 45] ++ e.messageBoundary ++ [45, 45, 13, 10] ++ dt,
      { e with processingStage := Stage.complete })

/-! ## Drivers: feeding chunks and draining events -/

/-- Repeatedly call `next_event`, collecting events, until it returns no
event (or `fuel` runs out; the `Bool` reports whether the drain genuinely
reached a no-event answer). -/
def drain : Nat → Decoder → Except PyErr (List Event × Decoder × Bool)
  | 0, d => Except.ok ([], d, false)
  | fuel + 1, d =>
    match nextEvent d with
    | Except.error e => Except.error e
    | Except.ok (none, d') => Except.ok ([], d', true)
    | Except.ok (some ev, d') =>
      match drain fuel d' with
      | Except.error e => Except.error e
      | Except.ok (evs, d'', q) => Except.ok (ev :: evs, d'', q)

/-- Append each chunk in turn and drain all events after each append; the
`Bool` is true when every drain ran to quiescence. -/
def decodeChunks (fuel : Nat) (d : Decoder) :
    List Bytes → Except PyErr (List Event × Decoder × Bool)
  | [] => Except.ok ([], d, true)
  | c :: cs =>
    match decoderCall d (some c) with
    | (some e, _) => Except.error e
    | (none, d1) =>
      match drain fuel d1 with
      | Except.error e => Except.error e
      | Except.ok (evs, d2, q1) =>
        match decodeChunks fuel d2 cs with
        | Except.error e => Except.error e
        | Except.ok (evs2, d3, q2) => Except.ok (evs ++ evs2, d3, q1 && q2)

/-- Replay a list of events through an encoder, concatenating the emitted
byte strings. -/
def encodeEvents (e : Encoder) : List Event → Except PyErr Bytes
  | [] => Except.ok []
  | ev :: evs =>
    match sendEvent e ev with
    | Except.error err => Except.error err
    | Except.ok (bs, e') =>
      match encodeEvents e' evs with
      | Except.error err => Except.error err
      | Except.ok rest => Except.ok (bs ++ rest)

end SM

namespace SM

/-- Decidable equality for `Except` results (needed to settle concrete runs
by `decide`). -/
instance {ε α : Type} [DecidableEq ε] [DecidableEq α] :
    DecidableEq (Except ε α) := fun a b =>
  match a, b with
  | Except.ok x, Except.ok y =>
    if h : x = y then isTrue (by rw [h]) else isFalse (by simp [h])
  | Except.error x, Except.error y =>
    if h : x = y then isTrue (by rw [h]) else isFalse (by simp [h])
  | Except.ok _, Except.error _ => isFalse (by simp)
  | Except.error _, Except.ok _ => isFalse (by simp)

end SM

namespace SM

/-! ## Basic facts about the search machinery -/

theorem searchAux_eq_some {α : Type} {m : Bytes → Option α} {s : Bytes}
    {i fuel : Nat} {j : Nat} {a : α}
    (h : searchAux m s i fuel = some (j, a)) :
    m (s.drop j) = some a ∧ i ≤ j := by
  induction fuel generalizing i with
  | zero => simp [searchAux] at h
  | succ fuel ih =>
    rw [searchAux] at h
    cases hm : m (s.drop i) with
    | some a' =>
      rw [hm] at h
      cases h
      exact ⟨hm, Nat.le_refl _⟩
    | none =>
      rw [hm] at h
      obtain ⟨h1, h2⟩ := ih h
      exact ⟨h1, Nat.le_of_succ_le h2⟩

theorem reSearch_eq_some {α : Type} {m : Bytes → Option α} {s : Bytes}
    {pos : Nat} {j : Nat} {a : α}
    (h : reSearch m s pos = some (j, a)) :
    m (s.drop j) = some a ∧ pos ≤ j :=
  searchAux_eq_some h

theorem startsWith_drop_containsSub {pat s : Bytes} {k : Nat}
    (h : startsWith pat (s.drop k) = true) : containsSub s pat = true := by
  induction s generalizing k with
  | nil =>
    cases pat with
    | nil => simp [containsSub, startsWith]
    | cons p ps => simp [startsWith] at h
  | cons c ss ih =>
    cases k with
    | zero =>
      simp only [List.drop_zero] at h
      simp [containsSub, h]
    | succ k =>
      rw [containsSub]
      simp only [List.drop_succ_cons] at h
      rw [ih h]
      simp

theorem delimTail_startsWith {bnd t : Bytes} {x : Nat × Bool}
    (h : delimTail bnd t = some x) :
    startsWith ([45, 45] ++ bnd) t = true := by
  unfold delimTail at h
  by_cases hs : startsWith ([45, 45] ++ bnd) t = true
  · exact hs
  · rw [Bool.not_eq_true] at hs
    rw [hs] at h
    simp at h

theorem orElse_eq_some {α : Type} {a : Option α} {f : Unit → Option α}
    {x : α} (h : a.orElse f = some x) :
    a = some x ∨ (a = none ∧ f () = some x) := by
  cases a with
  | none => exact Or.inr ⟨rfl, h⟩
  | some v => exact Or.inl h

theorem boundaryMatchAt_containsSub {bnd s : Bytes} {x : Nat × Bool}
    (h : boundaryMatchAt bnd s = some x) :
    ∃ k, startsWith ([45, 45] ++ bnd) (s.drop k) = true := by
  unfold boundaryMatchAt at h
  rcases orElse_eq_some h with h1 | ⟨-, h1⟩
  · split at h1
    · cases h3 : delimTail bnd (s.drop 2) with
      | none => rw [h3] at h1; simp at h1
      | some z => exact ⟨2, delimTail_startsWith h3⟩
    · simp at h1
  · rcases orElse_eq_some h1 with h2 | ⟨-, h2⟩ <;>
    · split at h2
      · cases h3 : delimTail bnd (s.drop 1) with
        | none => rw [h3] at h2; simp at h2
        | some z => exact ⟨1, delimTail_startsWith h3⟩
      · simp at h2

theorem boundarySearch_containsSub {bnd buf : Bytes} {j : Nat} {a : Nat × Bool}
    (h : reSearch (boundaryMatchAt bnd) buf 0 = some (j, a)) :
    containsSub buf ([45, 45] ++ bnd) = true := by
  obtain ⟨hm, -⟩ := reSearch_eq_some h
  obtain ⟨k, hk⟩ := boundaryMatchAt_containsSub hm
  rw [List.drop_drop] at hk
  exact startsWith_drop_containsSub hk

/-- The guard `buffer.find(b"--" + boundary) != -1` in `_process_data` never
changes the outcome of the search: a successful delimiter match implies the
literal substring is present. -/
theorem processData_guard (bnd buf : Bytes) :
    (if containsSub buf ([45, 45] ++ bnd) then
        reSearch (boundaryMatchAt bnd) buf 0
      else none) = reSearch (boundaryMatchAt bnd) buf 0 := by
  split
  · rfl
  · cases hs : reSearch (boundaryMatchAt bnd) buf 0 with
    | none => rfl
    | some v =>
      obtain ⟨j, a⟩ := v
      exact absurd (boundarySearch_containsSub hs) (by simp_all)

end SM

namespace SM

/-- The events `_process_part` can produce are field/file events only. -/
theorem processPart_event_shape {d : Decoder} {ev : Event} {d' : Decoder}
    (h : processPart d = Except.ok (some ev, d')) :
    (∃ nm hs, ev = Event.field nm hs) ∨
      (∃ nm fn hs, ev = Event.file nm fn hs) := by
  unfold processPart at h
  split at h
  · split at h
    · simp at h
    · split at h
      · simp at h
      · split at h
        · simp at h
        · split at h
          · simp only [Except.ok.injEq, Prod.mk.injEq, Option.some.injEq] at h
            exact Or.inr ⟨_, _, _, h.1.symm⟩
          · simp only [Except.ok.injEq, Prod.mk.injEq, Option.some.injEq] at h
            exact Or.inl ⟨_, _, h.1.symm⟩
  · simp at h

/-- C3 (auxiliary form): in the `DATA` stage `next_event` behaves exactly as
the claim describes, phrased directly in terms of the delimiter search. -/
theorem nextEvent_data_stage (d : Decoder)
    (h : d.processingStage = Stage.data) :
    nextEvent d =
      match reSearch (boundaryMatchAt d.messageBoundary) d.buffer 0 with
      | some (s, n, fin) =>
        Except.ok (some (Event.data (d.buffer.take s) false),
          { d with
              processingStage := if fin then Stage.epilogue else Stage.part,
              buffer := d.buffer.drop (s + n) })
      | none =>
        Except.ok
          (if d.buffer.take (getBufferLastNewline d.buffer) = [] then none
           else some
             (Event.data (d.buffer.take (getBufferLastNewline d.buffer)) true),
           { d with buffer := d.buffer.drop (getBufferLastNewline d.buffer) }) := by
  simp only [nextEvent, h, processData, processData_guard]
  cases hs : reSearch (boundaryMatchAt d.messageBoundary) d.buffer 0 with
  | none => rfl
  | some v =>
    obtain ⟨s, n, fin⟩ := v
    simp

end SM

namespace SM

/-- The event `_process_preamble` can produce is a preamble event. -/
theorem processPreamble_shape {d : Decoder} {ev : Event} {d' : Decoder}
    (h : processPreamble d = (some ev, d')) : ∃ x, ev = Event.preamble x := by
  unfold processPreamble at h
  split at h
  · simp only [Prod.mk.injEq, Option.some.injEq] at h
    exact ⟨_, h.1.symm⟩
  · simp at h

/-- Concrete boundary `b"b"` used by the concrete runs below. -/
def bndB : Bytes := [98]

/-- A complete canonical message with boundary `b`, one field part `x` with
body `hello`, and epilogue `EPILOG`. -/
def msgEpi : Bytes :=
  S ("\r\n--b\r\nContent-Disposition: form-data; name=") ++ [34, 120, 34] ++
    S ("\r\n\r\nhello\r\n--b--\r\nEPILOG")

/-- A decoder-in-`DATA`-stage state with a partial body buffered. -/
def c3State : Decoder :=
  { buffer := S ("hel")
    maxSize := none
    processingStage := Stage.data
    messageBoundary := bndB
    searchPosition := 0 }

/-- C3: in the DATA stage, when no full boundary delimiter matches in the
buffer, `next_event` emits `Data{bytes, more_data=true}` where `bytes` is the
buffer prefix ending at the minimum of the last line-feed index and the last
carriage-return index (each defaulting to the buffer length when absent,
which is what `getBufferLastNewline` computes), and emits no event at all
when that prefix is empty; when the boundary delimiter pattern matches, it
emits `Data{bytes before the match, more_data=false}` even when that prefix
is empty. -/
theorem c3_data_stage_events (d : Decoder)
    (h : d.processingStage = Stage.data) :
    nextEvent d =
      match reSearch (boundaryMatchAt d.messageBoundary) d.buffer 0 with
      | some (s, n, fin) =>
        Except.ok (some (Event.data (d.buffer.take s) false),
          { d with
              processingStage := if fin then Stage.epilogue else Stage.part,
              buffer := d.buffer.drop (s + n) })
      | none =>
        Except.ok
          (if d.buffer.take (getBufferLastNewline d.buffer) = [] then none
           else some
             (Event.data (d.buffer.take (getBufferLastNewline d.buffer)) true),
           { d with buffer := d.buffer.drop (getBufferLastNewline d.buffer) }) :=
  nextEvent_data_stage d h

/-- C3 witness: the DATA-stage characterization applied at a concrete state
(no delimiter match, a non-empty prefix: a `Data` chunk with
`more_data = true` is emitted). -/
theorem c3_witness :
    nextEvent c3State =
      match reSearch (boundaryMatchAt c3State.messageBoundary)
          c3State.buffer 0 with
      | some (s, n, fin) =>
        Except.ok (some (Event.data (c3State.buffer.take s) false),
          { c3State with
              processingStage := if fin then Stage.epilogue else Stage.part,
              buffer := c3State.buffer.drop (s + n) })
      | none =>
        Except.ok
          (if c3State.buffer.take (getBufferLastNewline c3State.buffer) = []
           then none
           else some (Event.data
             (c3State.buffer.take (getBufferLastNewline c3State.buffer)) true),
           { c3State with
              buffer := c3State.buffer.drop
                (getBufferLastNewline c3State.buffer) }) :=
  c3_data_stage_events c3State rfl

/-- C9: every `Data` event emitted with `more_data = true` carries non-empty
bytes (an empty `Data` payload can only occur with `more_data = false`). -/
theorem c9_data_more_nonempty (d d' : Decoder) (bs : Bytes)
    (h : nextEvent d = Except.ok (some (Event.data bs true), d')) :
    bs ≠ [] := by
  cases hst : d.processingStage with
  | complete => simp [nextEvent, hst] at h
  | preamble =>
    simp only [nextEvent, hst] at h
    rcases hp : processPreamble d with ⟨evo, d₁⟩
    rw [hp] at h
    cases evo with
    | none => simp at h
    | some ev =>
      obtain ⟨x, hx⟩ := processPreamble_shape hp
      subst hx
      simp at h
  | part =>
    simp only [nextEvent, hst] at h
    cases hp : processPart d with
    | error e => rw [hp] at h; simp at h
    | ok r =>
      obtain ⟨evo, d₁⟩ := r
      rw [hp] at h
      cases evo with
      | none => simp at h
      | some ev =>
        rcases processPart_event_shape hp with ⟨nm, hs, hx⟩ | ⟨nm, fn, hs, hx⟩ <;>
          (subst hx; simp at h)
  | data =>
    rw [nextEvent_data_stage d hst] at h
    cases hs : reSearch (boundaryMatchAt d.messageBoundary) d.buffer 0 with
    | some v =>
      obtain ⟨s, n, fin⟩ := v
      rw [hs] at h
      simp at h
    | none =>
      rw [hs] at h
      by_cases hne : d.buffer.take (getBufferLastNewline d.buffer) = []
      · rw [if_pos hne] at h
        simp at h
      · rw [if_neg hne] at h
        simp only [Except.ok.injEq, Prod.mk.injEq, Option.some.injEq,
          Event.data.injEq, and_true] at h
        intro hbs
        exact hne (h.1.trans hbs)
  | epilogue => simp [nextEvent, hst] at h

/-- C9 witness: applied at a concrete state that emits a partial chunk. -/
theorem c9_witness : S ("hel") ≠ [] :=
  c9_data_more_nonempty c3State
    { c3State with buffer := [] } (S ("hel")) (by decide)

/-- C6: a decoder built with a byte budget strictly smaller than the input
fails the append itself with `RequestEntityTooLarge`, leaving the freshly
constructed state untouched (so no event was ever produced). -/
theorem c6_size_limit (boundary input : Bytes) (m : Nat)
    (h : m < input.length) :
    decoderCall (mkDecoder boundary (some m)) (some input) =
      (some PyErr.requestEntityTooLarge, mkDecoder boundary (some m)) := by
  have hne : input ≠ [] := by
    intro he
    rw [he] at h
    simp at h
  simp only [decoderCall, mkDecoder]
  rw [if_neg hne]
  simp [h]

/-- C6 witness: budget 2, three input bytes. -/
theorem c6_witness :
    decoderCall (mkDecoder bndB (some 2)) (some (S ("abc"))) =
      (some PyErr.requestEntityTooLarge, mkDecoder bndB (some 2)) :=
  c6_size_limit bndB (S ("abc")) 2 (by decide)

/-- C10: the append is atomic and exact at the limit: a failing append leaves
the state unchanged; appending `None` or empty bytes never fails and never
changes the state (even with a full budget); and an append that lands exactly
on `max_size` succeeds (the error needs a strict excess). -/
theorem c10_append_exactness (d : Decoder) (bs : Bytes) :
    ((decoderCall d (some bs)).1.isSome → (decoderCall d (some bs)).2 = d) ∧
    decoderCall d none = (none, d) ∧
    decoderCall d (some []) = (none, d) ∧
    (∀ m, d.maxSize = some m → d.buffer.length + bs.length ≤ m →
      decoderCall d (some bs) = (none, { d with buffer := d.buffer ++ bs })) := by
  refine ⟨?_, rfl, rfl, ?_⟩
  · intro h
    by_cases hbs : bs = []
    · subst hbs
      simp [decoderCall] at h
    · cases hms : d.maxSize with
      | none => simp [decoderCall, hbs, hms] at h
      | some m =>
        by_cases hgt : d.buffer.length + bs.length > m
        · simp [decoderCall, hbs, hms, hgt]
        · simp [decoderCall, hbs, hms, hgt] at h
  · intro m hm hle
    have hngt : ¬ d.buffer.length + bs.length > m := by omega
    by_cases hbs : bs = []
    · subst hbs
      simp [decoderCall]
    · simp [decoderCall, hbs, hm, hngt]

/-- C10 witness: a failing append leaves a buffered decoder unchanged, and an
exact-fit append succeeds. -/
theorem c10_witness :
    (decoderCall { mkDecoder bndB (some 4) with buffer := [97, 98] }
        (some [99, 100]) =
      (none, { mkDecoder bndB (some 4) with buffer := [97, 98, 99, 100] })) ∧
    decoderCall { mkDecoder bndB (some 4) with buffer := [97, 98] } none =
      (none, { mkDecoder bndB (some 4) with buffer := [97, 98] }) := by
  refine ⟨?_, ?_⟩
  · have h := (c10_append_exactness
      { mkDecoder bndB (some 4) with buffer := [97, 98] } [99, 100]).2.2.2
      4 rfl (by decide)
    exact h
  · exact (c10_append_exactness
      { mkDecoder bndB (some 4) with buffer := [97, 98] } [99, 100]).2.1

end SM

namespace SM

/-- The decoder state after appending `msgEpi` in one chunk. -/
def c5Fed : Decoder := (decoderCall (mkDecoder bndB) (some msgEpi)).2

/-- The decoder state reached after the preamble, field and data events of
`msgEpi`: `EPILOGUE` stage with the epilogue bytes buffered. -/
def c5State : Decoder :=
  { buffer := S ("EPILOG")
    maxSize := none
    processingStage := Stage.epilogue
    messageBoundary := bndB
    searchPosition := 0 }

/-- C5 counterexample: a decoder that has just reached the `EPILOGUE` stage
(reachable by a concrete run) emits the `Epilogue` event on the very next
`next_event` call even though end-of-input was never signalled — indeed no
end-of-input signal exists: `__call__(None)` is a no-op.  The claim's
"returns no event and leaves the decoder state unchanged" is false here. -/
theorem c5_counterexample :
    (drain 3 c5Fed).toOption.map (fun x => x.2.1) = some c5State ∧
    c5State.processingStage = Stage.epilogue ∧
    decoderCall c5State none = (none, c5State) ∧
    nextEvent c5State ≠ Except.ok (none, c5State) ∧
    nextEvent c5State = Except.ok (some (Event.epilogue (S ("EPILOG"))),
      { c5State with buffer := [], processingStage := Stage.complete }) := by
  decide

/-- C5 amended: in the `EPILOGUE` stage `next_event` immediately emits the
single `Epilogue` event carrying all remaining buffered bytes, clears the
buffer and moves to `COMPLETE`; there is no end-of-input signal (an append of
`None` is a no-op). -/
theorem c5_epilogue_immediate (d : Decoder)
    (h : d.processingStage = Stage.epilogue) :
    nextEvent d = Except.ok (some (Event.epilogue d.buffer),
      { d with buffer := [], processingStage := Stage.complete }) ∧
    decoderCall d none = (none, d) :=
  ⟨by simp [nextEvent, h], rfl⟩

/-- C5 witness: the amended statement applied at the concrete reached
state. -/
theorem c5_witness :
    nextEvent c5State = Except.ok (some (Event.epilogue c5State.buffer),
      { c5State with buffer := [], processingStage := Stage.complete }) ∧
    decoderCall c5State none = (none, c5State) :=
  c5_epilogue_immediate c5State rfl

/-- A message whose only part spells its disposition header in upper case. -/
def c4Msg : Bytes :=
  S ("\r\n--b\r\nCONTENT-DISPOSITION: form-data; name=x\r\n\r\nhello\r\n--b--\r\n")

/-- The `PART`-stage state reached after the preamble event of `c4Msg`. -/
def c4Part : Decoder :=
  { buffer := S ("CONTENT-DISPOSITION: form-data; name=x\r\n\r\nhello\r\n--b--\r\n")
    maxSize := none
    processingStage := Stage.part
    messageBoundary := bndB
    searchPosition := 0 }

/-- C4 counterexample: the header block parses to a single header whose name
lower-cases to `content-disposition` (so a Content-Disposition header is
present case-insensitively), yet `next_event` raises the protocol error —
the source only consults the two exact spellings `Content-Disposition` and
`content-disposition`. -/
theorem c4_counterexample :
    (nextEvent (decoderCall (mkDecoder bndB) (some c4Msg)).2).toOption.map
        (fun x => x.2) = some c4Part ∧
    reSearch blankAt c4Part.buffer c4Part.searchPosition = some (38, 4) ∧
    parseHeaders (c4Part.buffer.take 38) =
      Except.ok [(S ("CONTENT-DISPOSITION"), S ("form-data; name=x"))] ∧
    strLower (S ("CONTENT-DISPOSITION")) = S ("content-disposition") ∧
    nextEvent c4Part = Except.error PyErr.missingContentDisposition := by
  decide

end SM

namespace SM

/-- The only error `parse_headers` can raise is the missing-colon
`ValueError`. -/
theorem parseHeaderLines_err {lines : List Bytes} {e : PyErr}
    (h : parseHeaderLines lines = Except.error e) :
    e = PyErr.headerLineNoColon := by
  induction lines with
  | nil => simp [parseHeaderLines] at h
  | cons l rest ih =>
    rw [parseHeaderLines] at h
    split at h
    · injection h with h'
      exact h'.symm
    · split at h
      · injection h with h'
        exact ih (by rw [‹parseHeaderLines rest = _›, h'])
      · simp at h

/-- The only error `parse_headers` can raise is the missing-colon
`ValueError`. -/
theorem parseHeaders_err {data : Bytes} {e : PyErr}
    (h : parseHeaders data = Except.error e) :
    e = PyErr.headerLineNoColon := by
  simp only [parseHeaders] at h
  split at h
  · injection h with h'
    exact parseHeaderLines_err (by rw [‹parseHeaderLines _ = _›, h'])
  · simp at h

/-- `bytes.decode` raises only `LookupError` or `UnicodeDecodeError`. -/
theorem pyDecode_err {enc : PyStr} {bs : Bytes} {e : PyErr}
    (h : pyDecode enc bs = Except.error e) :
    e = PyErr.lookupError ∨ e = PyErr.unicodeDecodeError := by
  simp only [pyDecode] at h
  split at h
  · split at h
    · simp at h
    · injection h with h'
      exact Or.inr h'.symm
  · split at h
    · simp at h
    · split at h
      · split at h
        · simp at h
        · injection h with h'
          exact Or.inr h'.symm
      · injection h with h'
        exact Or.inl h'.symm

/-- One parameter step raises only decode errors or the continuation
`TypeError`. -/
theorem pieceStep_err {g : PieceM} {opts : List (PyStr × Option PyStr)}
    {ce : Option PyStr} {e : PyErr}
    (h : pieceStep g opts ce = Except.error e) :
    e = PyErr.lookupError ∨ e = PyErr.unicodeDecodeError ∨
      e = PyErr.typeError := by
  simp only [pieceStep] at h
  split at h
  · simp at h
  · split at h
    · injection h with h'
      subst h'
      rename_i heq
      split at heq
      · rcases pyDecode_err heq with h1 | h1
        · exact Or.inl h1
        · exact Or.inr (Or.inl h1)
      · simp at heq
    · split at h
      · split at h
        · simp at h
        · injection h with h'
          exact Or.inr (Or.inr h'.symm)
        · simp at h
      · simp at h

/-- The option-parameter loop raises only decode errors or the `TypeError`
from concatenating onto a `None` value. -/
theorem parsePieces_err :
    ∀ (fuel : Nat) (rest : PyStr) (opts : List (PyStr × Option PyStr))
      (ce : Option PyStr) (e : PyErr),
      parsePieces fuel rest opts ce = Except.error e →
      e = PyErr.lookupError ∨ e = PyErr.unicodeDecodeError ∨
        e = PyErr.typeError := by
  intro fuel
  induction fuel with
  | zero =>
    intro rest opts ce e h
    simp [parsePieces] at h
  | succ fuel ih =>
    intro rest opts ce e h
    cases rest with
    | nil => simp [parsePieces] at h
    | cons c cs =>
      rw [parsePieces] at h
      · split at h
        · simp at h
        · split at h
          · injection h with h'
            subst h'
            exact pieceStep_err ‹pieceStep _ _ _ = _›
          · exact ih _ _ _ _ h
      · simp

/-- `parse_options_header` raises only decode errors or the continuation
`TypeError` — in particular never the missing-disposition error. -/
theorem parseOptionsHeader_err {v : Option PyStr} {e : PyErr}
    (h : parseOptionsHeader v = Except.error e) :
    e = PyErr.lookupError ∨ e = PyErr.unicodeDecodeError ∨
      e = PyErr.typeError := by
  unfold parseOptionsHeader at h
  split at h
  · simp at h
  · split at h
    · simp at h
    · simp only [] at h
      split at h
      · simp at h
      · simp at h
      · split at h
        · injection h with h'
          subst h'
          exact parsePieces_err _ _ _ _ _ ‹parsePieces _ _ _ _ = _›
        · simp at h

end SM

namespace SM

/-- Characterization of the missing-disposition error of `_process_part`:
once the blank line is found and the header block parses, the error is
raised exactly when neither exact spelling carries a non-empty value. -/
theorem processPart_missing_iff {d : Decoder} {s n : Nat}
    {hdrs : List (PyStr × PyStr)}
    (hs : reSearch blankAt d.buffer d.searchPosition = some (s, n))
    (hp : parseHeaders (d.buffer.take s) = Except.ok hdrs) :
    (processPart d = Except.error PyErr.missingContentDisposition ↔
      contentDispositionOf hdrs = none) := by
  cases hcd : contentDispositionOf hdrs with
  | none => simp [processPart, hs, hp, hcd]
  | some cd =>
    simp only [processPart, hs, hp, hcd]
    constructor
    · intro hcontra
      split at hcontra
      · rename_i e' heq
        injection hcontra with h'
        subst h'
        rcases parseOptionsHeader_err heq with h1 | h1 | h1 <;> simp at h1
      · split at hcontra <;> simp at hcontra
    · intro hfalse
      simp at hfalse

/-- In the `PART` stage, `next_event` errors exactly as `_process_part`
does. -/
theorem nextEvent_part_err {d : Decoder} (h : d.processingStage = Stage.part)
    (e : PyErr) :
    (nextEvent d = Except.error e ↔ processPart d = Except.error e) := by
  simp only [nextEvent, h]
  cases hp : processPart d with
  | error e' => simp
  | ok r =>
    obtain ⟨evo, d₁⟩ := r
    cases evo <;> simp

/-- C4 amended: in the PART stage, once the blank-line terminator is found
and the header block parses, `next_event` fails with the protocol error iff
neither the exact spelling `Content-Disposition` nor `content-disposition`
carries a non-empty value (`contentDispositionOf` is exactly the source's
truthiness check; other capitalizations are not recognized). -/
theorem c4_missing_cd_iff (d : Decoder) (h : d.processingStage = Stage.part)
    (s n : Nat) (hs : reSearch blankAt d.buffer d.searchPosition = some (s, n))
    (hdrs : List (PyStr × PyStr))
    (hp : parseHeaders (d.buffer.take s) = Except.ok hdrs) :
    (nextEvent d = Except.error PyErr.missingContentDisposition ↔
      contentDispositionOf hdrs = none) :=
  (nextEvent_part_err h PyErr.missingContentDisposition).trans
    (processPart_missing_iff hs hp)

/-- The `PART`-stage state reached after the preamble event of `msgEpi`. -/
def c4PartOk : Decoder :=
  { buffer := S ("Content-Disposition: form-data; name=") ++ [34, 120, 34] ++
      S ("\r\n\r\nhello\r\n--b--\r\nEPILOG")
    maxSize := none
    processingStage := Stage.part
    messageBoundary := bndB
    searchPosition := 0 }

/-- C4 witness: the amended equivalence applied at a concrete PART-stage
state whose header block carries a well-spelled disposition header. -/
theorem c4_witness :
    (nextEvent c4PartOk = Except.error PyErr.missingContentDisposition ↔
      contentDispositionOf
        [(S ("Content-Disposition"),
          S ("form-data; name=") ++ [34, 120, 34])] = none) :=
  c4_missing_cd_iff c4PartOk rfl 40 4 (by decide)
    [(S ("Content-Disposition"), S ("form-data; name=") ++ [34, 120, 34])]
    (by decide)

/-- The two-segment RFC 2231 continuation header of C7. -/
def c7TwoSeg : PyStr :=
  S ("form-data; filename*0*=UTF-8") ++ [39, 39] ++
    S ("%e6%96%87; filename*1=%e6%9b%b8.txt")

/-- The equivalent single-segment extended-notation header of C7. -/
def c7OneSeg : PyStr :=
  S ("form-data; filename*=UTF-8") ++ [39, 39] ++
    S ("%e6%96%87%e6%9b%b8.txt")

/-- C7: the two-segment continuation `filename*0*=UTF-8''%e6%96%87` /
`filename*1=%e6%9b%b8.txt` decodes to the same filename as the single
non-continued `filename*=UTF-8''%e6%96%87%e6%9b%b8.txt` — the second
segment, which omits its own encoding, is percent-decoded with the
remembered `UTF-8` of the continuation run and concatenated in encounter
order, giving the code points of `文書.txt` both ways. -/
theorem c7_rfc2231_continuation :
    parseOptionsHeader (some c7TwoSeg) =
      Except.ok (S ("form-data"),
        [(S ("filename"), some ([25991, 26360] ++ S (".txt")))]) ∧
    parseOptionsHeader (some c7OneSeg) =
      Except.ok (S ("form-data"),
        [(S ("filename"), some ([25991, 26360] ++ S (".txt")))]) := by
  decide

end SM

namespace SM

/-- A message whose part has a header line with no colon. -/
def c8Msg : Bytes := S ("\r\n--b\r\nfoo\r\n\r\nhello\r\n--b--\r\n")

/-- C8 counterexample: a malformed header line (no colon) makes the decoder
raise an error that is neither the size-limit error nor the
missing-Content-Disposition protocol error, refuting "these are the only two
error conditions". -/
theorem c8_counterexample :
    decodeChunks 10 (mkDecoder bndB) [c8Msg] =
      Except.error PyErr.headerLineNoColon ∧
    PyErr.headerLineNoColon ≠ PyErr.requestEntityTooLarge ∧
    PyErr.headerLineNoColon ≠ PyErr.missingContentDisposition := by
  decide

/-- Error classification of `_process_part`. -/
theorem processPart_err {d : Decoder} {e : PyErr}
    (h : processPart d = Except.error e) :
    e = PyErr.missingContentDisposition ∨ e = PyErr.headerLineNoColon ∨
      e = PyErr.lookupError ∨ e = PyErr.unicodeDecodeError ∨
      e = PyErr.typeError := by
  unfold processPart at h
  split at h
  · split at h
    · injection h with h'
      subst h'
      exact Or.inr (Or.inl (parseHeaders_err ‹parseHeaders _ = _›))
    · split at h
      · injection h with h'
        exact Or.inl h'.symm
      · split at h
        · injection h with h'
          subst h'
          rcases parseOptionsHeader_err ‹parseOptionsHeader _ = _› with
            h1 | h1 | h1
          · exact Or.inr (Or.inr (Or.inl h1))
          · exact Or.inr (Or.inr (Or.inr (Or.inl h1)))
          · exact Or.inr (Or.inr (Or.inr (Or.inr h1)))
        · split at h <;> simp at h
  · simp at h

/-- C8 amended: beyond the size-limit error on append and the
missing-Content-Disposition protocol error, the decoder can also raise on a
header line without a colon and on an undecodable RFC 2231 parameter
(unknown charset name, or bytes invalid for the charset, or a continuation
concatenated onto a valueless parameter); these decode-side errors and the
two claimed ones are exhaustive: `next_event` raises only the listed parsing
errors, and the append operation raises only `RequestEntityTooLarge`. -/
theorem c8_error_taxonomy :
    (∀ (d : Decoder) (e : PyErr), nextEvent d = Except.error e →
      e = PyErr.missingContentDisposition ∨ e = PyErr.headerLineNoColon ∨
      e = PyErr.lookupError ∨ e = PyErr.unicodeDecodeError ∨
      e = PyErr.typeError) ∧
    (∀ (d : Decoder) (bs : Option Bytes) (e : PyErr),
      (decoderCall d bs).1 = some e → e = PyErr.requestEntityTooLarge) := by
  constructor
  · intro d e h
    cases hst : d.processingStage with
    | complete => simp [nextEvent, hst] at h
    | epilogue => simp [nextEvent, hst] at h
    | data => simp [nextEvent, hst] at h
    | preamble =>
      simp only [nextEvent, hst] at h
      rcases hp : processPreamble d with ⟨evo, d₁⟩
      rw [hp] at h
      cases evo <;> simp at h
    | part => exact processPart_err ((nextEvent_part_err hst e).mp h)
  · intro d bs e h
    cases bs with
    | none => simp [decoderCall] at h
    | some b =>
      by_cases hb : b = []
      · simp [decoderCall, hb] at h
      · cases hms : d.maxSize with
        | none => simp [decoderCall, hb, hms] at h
        | some m =>
          by_cases hgt : d.buffer.length + b.length > m
          · simp only [decoderCall, hb, hms, if_neg hb, hgt, if_pos] at h
            injection h with h'
            exact h'.symm
          · simp [decoderCall, hb, hms, hgt] at h

/-- The `PART`-stage state reached after the preamble event of `c8Msg`. -/
def c8Part : Decoder :=
  { buffer := S ("foo\r\n\r\nhello\r\n--b--\r\n")
    maxSize := none
    processingStage := Stage.part
    messageBoundary := bndB
    searchPosition := 0 }

/-- C8 witness: the taxonomy applied at a concrete erroring `next_event`
call and a concrete over-budget append. -/
theorem c8_witness :
    (PyErr.headerLineNoColon = PyErr.missingContentDisposition ∨
      PyErr.headerLineNoColon = PyErr.headerLineNoColon ∨
      PyErr.headerLineNoColon = PyErr.lookupError ∨
      PyErr.headerLineNoColon = PyErr.unicodeDecodeError ∨
      PyErr.headerLineNoColon = PyErr.typeError) ∧
    PyErr.requestEntityTooLarge = PyErr.requestEntityTooLarge :=
  ⟨c8_error_taxonomy.1 c8Part PyErr.headerLineNoColon (by decide),
    c8_error_taxonomy.2 (mkDecoder bndB (some 2)) (some (S ("abc")))
      PyErr.requestEntityTooLarge (by decide)⟩

end SM

namespace SM

/-- Definitional unfolding of one round of `decodeChunks`. -/
theorem decodeChunks_cons (fuel : Nat) (d : Decoder) (c : Bytes)
    (cs : List Bytes) :
    decodeChunks fuel d (c :: cs) =
      match decoderCall d (some c) with
      | (some e, _) => Except.error e
      | (none, d1) =>
        match drain fuel d1 with
        | Except.error e => Except.error e
        | Except.ok (evs, d2, q1) =>
          match decodeChunks fuel d2 cs with
          | Except.error e => Except.error e
          | Except.ok (evs2, d3, q2) => Except.ok (evs ++ evs2, d3, q1 && q2) :=
  rfl

/-- Definitional unfolding of one step of `drain`. -/
theorem drain_succ (fuel : Nat) (d : Decoder) :
    drain (fuel + 1) d =
      match nextEvent d with
      | Except.error e => Except.error e
      | Except.ok (none, d') => Except.ok ([], d', true)
      | Except.ok (some ev, d') =>
        match drain fuel d' with
        | Except.error e => Except.error e
        | Except.ok (evs, d'', q) => Except.ok (ev :: evs, d'', q) :=
  rfl

/-- Prepending an empty chunk to a quiescent decoder changes nothing. -/
theorem decodeChunks_nil_chunk (fuel : Nat) (d : Decoder) (cs : List Bytes)
    (hq : nextEvent d = Except.ok (none, d)) :
    decodeChunks (fuel + 1) d ([] :: cs) = decodeChunks (fuel + 1) d cs := by
  have hCall : decoderCall d (some []) = (none, d) := rfl
  have hdrain : drain (fuel + 1) d = Except.ok ([], d, true) := by
    rw [drain_succ, hq]
  rw [decodeChunks_cons, hCall]
  dsimp only
  rw [hdrain]
  dsimp only
  cases hrec : decodeChunks (fuel + 1) d cs with
  | error e => simp
  | ok r =>
    obtain ⟨evs2, d3, q2⟩ := r
    simp

set_option maxHeartbeats 4000000 in
/-- C2 counterexample: decoding `msgEpi` in one chunk and split at byte
offset 53 (inside the part body) produce different event sequences — the
split run emits the body as two `Data` chunks where the one-chunk run emits
one. -/
theorem c2_counterexample :
    msgEpi.take 53 ++ msgEpi.drop 53 = msgEpi ∧ 53 ≤ msgEpi.length ∧
    decodeChunks 20 (mkDecoder bndB) [msgEpi] ≠
      decodeChunks 20 (mkDecoder bndB) [msgEpi.take 53, msgEpi.drop 53] := by
  decide

/-- C2 amended: the identical-event-sequence property does hold for the two
trivial offsets: splitting at `k = 0` changes nothing, and splitting at
`k = length` changes nothing once the one-chunk run has drained to
quiescence; interior offsets can differ (a part body may be emitted as
several `Data` chunks, and a delimiter whose trailing whitespace spans the
split can even be missed), as the counterexample shows. -/
theorem c2_trivial_splits (fuel : Nat) (bnd M : Bytes) (ms : Option Nat) :
    decodeChunks (fuel + 1) (mkDecoder bnd ms) [M.take 0, M.drop 0] =
      decodeChunks (fuel + 1) (mkDecoder bnd ms) [M] ∧
    (∀ evs d, decodeChunks (fuel + 1) (mkDecoder bnd ms) [M] =
        Except.ok (evs, d, true) →
      nextEvent d = Except.ok (none, d) →
      decodeChunks (fuel + 1) (mkDecoder bnd ms)
          [M.take M.length, M.drop M.length] =
        Except.ok (evs, d, true)) := by
  have hD : ({ mkDecoder bnd ms with
      searchPosition := 0 - bnd.length - SEARCH_BUFFER_LENGTH } : Decoder) =
      mkDecoder bnd ms := by
    simp [mkDecoder, Nat.zero_sub]
  have h0 : nextEvent (mkDecoder bnd ms) = Except.ok (none, mkDecoder bnd ms) :=
    congrArg (fun x => Except.ok ((none : Option Event), x)) hD
  constructor
  · rw [List.take_zero, List.drop_zero]
    exact decodeChunks_nil_chunk fuel (mkDecoder bnd ms) [M] h0
  · intro evs d h hq
    rw [List.take_length, List.drop_length]
    rw [decodeChunks_cons] at h ⊢
    cases hc : decoderCall (mkDecoder bnd ms) (some M) with
    | mk eo d1 =>
      rw [hc] at h
      cases eo with
      | some e => simp at h
      | none =>
        dsimp only at h ⊢
        cases hd : drain (fuel + 1) d1 with
        | error e =>
          rw [hd] at h
          simp at h
        | ok r =>
          obtain ⟨evs1, d2, q1⟩ := r
          rw [hd] at h
          simp only [decodeChunks, List.append_nil, Bool.and_true,
            Except.ok.injEq, Prod.mk.injEq] at h
          obtain ⟨h1, h2, h3⟩ := h
          have hnil : ∀ (x : Decoder), nextEvent x = Except.ok (none, x) →
              decodeChunks (fuel + 1) x [[]] = Except.ok ([], x, true) := by
            intro x hx
            rw [decodeChunks_nil_chunk fuel x [] hx]
            rfl
          subst h1
          subst h2
          subst h3
          dsimp only
          rw [hnil _ hq]
          simp

end SM

namespace SM

/-- The events of decoding `msgEpi` in one chunk. -/
def c2Events : List Event :=
  [Event.preamble [],
   Event.field (some [120])
     [(S ("Content-Disposition"), S ("form-data; name=") ++ [34, 120, 34])],
   Event.data (S ("hello")) false,
   Event.epilogue (S ("EPILOG"))]

/-- The final decoder state of that run. -/
def c2Final : Decoder :=
  { buffer := []
    maxSize := none
    processingStage := Stage.complete
    messageBoundary := bndB
    searchPosition := 0 }

set_option maxHeartbeats 2000000 in
/-- C2 witness: the trivial-split equalities applied to the concrete message
`msgEpi`. -/
theorem c2_witness :
    decodeChunks 20 (mkDecoder bndB none) [msgEpi.take 0, msgEpi.drop 0] =
      decodeChunks 20 (mkDecoder bndB none) [msgEpi] ∧
    decodeChunks 20 (mkDecoder bndB none)
        [msgEpi.take msgEpi.length, msgEpi.drop msgEpi.length] =
      Except.ok (c2Events, c2Final, true) :=
  ⟨(c2_trivial_splits 19 bndB msgEpi none).1,
   (c2_trivial_splits 19 bndB msgEpi none).2 c2Events c2Final (by decide)
     (by decide)⟩

end SM

namespace SM

/-- The events of decoding `msgEpi` split three bytes before its end: the
`Epilogue` event fires as soon as the decoder enters the epilogue stage,
carrying only the epilogue bytes that have arrived so far. -/
def c1SplitEvents : List Event :=
  [Event.preamble [],
   Event.field (some [120])
     [(S ("Content-Disposition"), S ("form-data; name=") ++ [34, 120, 34])],
   Event.data (S ("hello")) false,
   Event.epilogue (S ("EPI"))]

/-- The final decoder state of that split run (the last three bytes stay
buffered in the `COMPLETE` stage forever). -/
def c1SplitFinal : Decoder :=
  { buffer := S ("LOG")
    maxSize := none
    processingStage := Stage.complete
    messageBoundary := bndB
    searchPosition := 0 }

set_option maxHeartbeats 2000000 in
/-- C1 counterexample: splitting the well-formed message `msgEpi` into two
chunks three bytes before its end makes the decoder emit its `Epilogue`
event before the epilogue has fully arrived; replaying the collected events
(up to and including the `Epilogue`) through a fresh encoder with the same
boundary yields only the first 68 bytes, not the original message. -/
theorem c1_counterexample :
    msgEpi.take 68 ++ msgEpi.drop 68 = msgEpi ∧
    decodeChunks 20 (mkDecoder bndB) [msgEpi.take 68, msgEpi.drop 68] =
      Except.ok (c1SplitEvents, c1SplitFinal, true) ∧
    encodeEvents (mkEncoder bndB) c1SplitEvents =
      Except.ok (msgEpi.take 68) ∧
    msgEpi.take 68 ≠ msgEpi := by
  decide

end SM

namespace SM

/-! ## Generic facts about `startsWith`, runs and searches (towards C1) -/

theorem startsWith_iff {p s : List Nat} :
    startsWith p s = true ↔ ∃ t, s = p ++ t := by
  induction p generalizing s with
  | nil => simp [startsWith]
  | cons c p' ih =>
    cases s with
    | nil =>
      simp only [startsWith]
      constructor
      · intro h
        cases h
      · rintro ⟨t, ht⟩
        cases ht
    | cons d s' =>
      simp only [startsWith, Bool.and_eq_true, decide_eq_true_eq, ih]
      constructor
      · rintro ⟨rfl, t, rfl⟩
        exact ⟨t, rfl⟩
      · rintro ⟨t, ht⟩
        injection ht with h1 h2
        exact ⟨h1.symm, t, h2⟩

theorem startsWith_append_self (p t : List Nat) :
    startsWith p (p ++ t) = true :=
  startsWith_iff.mpr ⟨t, rfl⟩

theorem startsWith_getElem {p s : List Nat} (h : startsWith p s = true) :
    ∀ k, k < p.length → s[k]? = p[k]? := by
  obtain ⟨t, rfl⟩ := startsWith_iff.mp h
  intro k hk
  exact List.getElem?_append_left hk

theorem startsWith_of_append {p u v : List Nat}
    (h : startsWith p (u ++ v) = true) (hl : p.length ≤ u.length) :
    startsWith p u = true := by
  rw [startsWith_iff] at h ⊢
  obtain ⟨t, ht⟩ := h
  refine ⟨u.drop p.length, ?_⟩
  have h1 : (u ++ v).take p.length = p := by
    rw [ht, List.take_left']
    rfl
  have h2 : u.take p.length = p := by
    rw [List.take_append_of_le_length hl] at h1
    exact h1
  conv_lhs => rw [← List.take_append_drop p.length u]
  rw [h2]

/-- Occurrence exclusion at a line-break junction: if `pat` is non-empty,
contains neither CR nor LF, and does not occur in `A`, then in
`A ++ [13, 10] ++ pat ++ R` it does not occur at any index below
`A.length + 2`. -/
theorem no_occurrence_before_junction {A pat R : Bytes} {i : Nat}
    (hne : pat ≠ []) (hc : ∀ c ∈ pat, c ≠ 13 ∧ c ≠ 10)
    (hA : containsSub A pat = false)
    (hi : i < A.length + 2)
    (h : startsWith pat ((A ++ 13 :: 10 :: (pat ++ R)).drop i) = true) :
    False := by
  set s := A ++ 13 :: 10 :: (pat ++ R) with hs
  by_cases hend : i + pat.length ≤ A.length
  · have hiA : i ≤ A.length := le_trans (Nat.le_add_right _ _) hend
    rw [hs, List.drop_append_of_le_length hiA] at h
    have hlen : pat.length ≤ (A.drop i).length := by
      rw [List.length_drop]
      omega
    have := startsWith_of_append h hlen
    have := startsWith_drop_containsSub this
    rw [hA] at this
    cases this
  · push_neg at hend
    have hpatlen : 1 ≤ pat.length := by
      cases pat with
      | nil => exact absurd rfl hne
      | cons a l => simp
    by_cases hiA : i ≤ A.length
    · -- the occurrence covers position `A.length`, which holds 13
      have hk : A.length - i < pat.length := by omega
      have h1 := startsWith_getElem h (A.length - i) hk
      rw [List.getElem?_drop] at h1
      have h2 : i + (A.length - i) = A.length := by omega
      rw [h2] at h1
      have h3 : s[A.length]? = some 13 := by
        rw [hs, List.getElem?_append_right (Nat.le_refl _)]
        simp
      rw [h3] at h1
      have h4 : (13 : Nat) ∈ pat := List.getElem?_mem h1.symm
      exact (hc 13 h4).1 rfl
    · -- i = A.length + 1: the occurrence starts at the 10
      have hieq : i = A.length + 1 := by omega
      have h1 := startsWith_getElem h 0 (by omega)
      rw [List.getElem?_drop, hieq] at h1
      have h3 : s[A.length + 1]? = some 10 := by
        rw [hs, List.getElem?_append_right (by omega)]
        have : A.length + 1 - A.length = 1 := by omega
        rw [this]
        simp
      rw [Nat.add_zero, h3] at h1
      have h4 : (10 : Nat) ∈ pat := List.getElem?_mem h1.symm
      exact (hc 10 h4).2 rfl

/-- Success of a search at a known position with known failures before it. -/
theorem searchAux_intro {α : Type} {m : Bytes → Option α} {s : Bytes}
    {j : Nat} {a : α} (hj : m (s.drop j) = some a) :
    ∀ (fuel pos : Nat), pos ≤ j → j < pos + fuel →
      (∀ i, pos ≤ i → i < j → m (s.drop i) = none) →
      searchAux m s pos fuel = some (j, a) := by
  intro fuel
  induction fuel with
  | zero =>
    intro pos h1 h2
    omega
  | succ fuel ih =>
    intro pos h1 h2 hmin
    rw [searchAux]
    by_cases hpj : pos = j
    · subst hpj
      rw [hj]
    · rw [hmin pos (Nat.le_refl _) (by omega)]
      exact ih (pos + 1) (by omega) (by omega)
        (fun i hi1 hi2 => hmin i (by omega) hi2)

theorem reSearch_intro {α : Type} {m : Bytes → Option α} {s : Bytes}
    {j : Nat} {a : α} (hle : j ≤ s.length) (hj : m (s.drop j) = some a)
    (hmin : ∀ i, i < j → m (s.drop i) = none) :
    reSearch m s 0 = some (j, a) :=
  searchAux_intro hj (s.length + 1) 0 (Nat.zero_le _) (by omega)
    (fun i _ hi2 => hmin i hi2)

end SM

namespace SM

/-! ## Delimiter matches at a canonical junction -/

theorem delimTail_cont (bnd rest : Bytes) :
    delimTail bnd (([45, 45] ++ bnd) ++ (13 :: 10 :: rest)) =
      some (bnd.length + 4, false) := by
  unfold delimTail
  rw [startsWith_append_self]
  have hdrop : (([45, 45] ++ bnd) ++ (13 :: 10 :: rest)).drop
      (2 + bnd.length) = 13 :: 10 :: rest := by
    have : ([45, 45] ++ bnd).length = 2 + bnd.length := by
      simp only [List.length_append, List.length_cons, List.length_nil]
    rw [← this, List.drop_left]
  simp only [if_pos rfl, hdrop]
  norm_num [startsWith, runLength, isBndWs, matchLB]
  omega

theorem delimTail_final (bnd rest : Bytes) :
    delimTail bnd (([45, 45] ++ bnd) ++ (45 :: 45 :: 13 :: 10 :: rest)) =
      some (bnd.length + 6, true) := by
  unfold delimTail
  rw [startsWith_append_self]
  have hdrop : (([45, 45] ++ bnd) ++ (45 :: 45 :: 13 :: 10 :: rest)).drop
      (2 + bnd.length) = 45 :: 45 :: 13 :: 10 :: rest := by
    have : ([45, 45] ++ bnd).length = 2 + bnd.length := by
      simp only [List.length_append, List.length_cons, List.length_nil]
    rw [← this, List.drop_left]
  simp only [if_pos rfl, hdrop]
  norm_num [startsWith, runLength, isBndWs, matchLB]
  omega

theorem boundaryMatchAt_cont (bnd rest : Bytes) :
    boundaryMatchAt bnd
        (13 :: 10 :: (([45, 45] ++ bnd) ++ (13 :: 10 :: rest))) =
      some (bnd.length + 6, false) := by
  unfold boundaryMatchAt
  have h1 : startsWith [13, 10]
      (13 :: 10 :: (([45, 45] ++ bnd) ++ (13 :: 10 :: rest))) = true := by
    simp [startsWith]
  rw [if_pos h1]
  have h2 : (13 :: 10 :: (([45, 45] ++ bnd) ++ (13 :: 10 :: rest))).drop 2 =
      ([45, 45] ++ bnd) ++ (13 :: 10 :: rest) := rfl
  rw [h2, delimTail_cont]
  simp only [Option.map_some, Option.orElse]
  norm_num

theorem boundaryMatchAt_final (bnd rest : Bytes) :
    boundaryMatchAt bnd
        (13 :: 10 :: (([45, 45] ++ bnd) ++ (45 :: 45 :: 13 :: 10 :: rest))) =
      some (bnd.length + 8, true) := by
  unfold boundaryMatchAt
  have h1 : startsWith [13, 10]
      (13 :: 10 :: (([45, 45] ++ bnd) ++ (45 :: 45 :: 13 :: 10 :: rest))) =
      true := by
    simp [startsWith]
  rw [if_pos h1]
  have h2 : (13 :: 10 ::
      (([45, 45] ++ bnd) ++ (45 :: 45 :: 13 :: 10 :: rest))).drop 2 =
      ([45, 45] ++ bnd) ++ (45 :: 45 :: 13 :: 10 :: rest) := rfl
  rw [h2, delimTail_final]
  simp only [Option.map_some, Option.orElse]
  norm_num

theorem preambleMatchAt_cont (bnd rest : Bytes) :
    preambleMatchAt bnd
        (13 :: 10 :: (([45, 45] ++ bnd) ++ (13 :: 10 :: rest))) =
      some (bnd.length + 6, false) := by
  unfold preambleMatchAt
  have h1 : startsWith [13, 10]
      (13 :: 10 :: (([45, 45] ++ bnd) ++ (13 :: 10 :: rest))) = true := by
    simp [startsWith]
  rw [if_pos h1]
  have h2 : (13 :: 10 :: (([45, 45] ++ bnd) ++ (13 :: 10 :: rest))).drop 2 =
      ([45, 45] ++ bnd) ++ (13 :: 10 :: rest) := rfl
  rw [h2, delimTail_cont]
  simp only [Option.map_some, Option.orElse]
  norm_num

theorem preambleMatchAt_final (bnd rest : Bytes) :
    preambleMatchAt bnd
        (13 :: 10 :: (([45, 45] ++ bnd) ++ (45 :: 45 :: 13 :: 10 :: rest))) =
      some (bnd.length + 8, true) := by
  unfold preambleMatchAt
  have h1 : startsWith [13, 10]
      (13 :: 10 :: (([45, 45] ++ bnd) ++ (45 :: 45 :: 13 :: 10 :: rest))) =
      true := by
    simp [startsWith]
  rw [if_pos h1]
  have h2 : (13 :: 10 ::
      (([45, 45] ++ bnd) ++ (45 :: 45 :: 13 :: 10 :: rest))).drop 2 =
      ([45, 45] ++ bnd) ++ (45 :: 45 :: 13 :: 10 :: rest) := rfl
  rw [h2, delimTail_final]
  simp only [Option.map_some, Option.orElse]
  norm_num

/-- Any successful `boundary_re` attempt has the delimiter literal one or two
bytes in. -/
theorem boundaryMatchAt_occ {bnd t : Bytes} {x : Nat × Bool}
    (h : boundaryMatchAt bnd t = some x) :
    startsWith ([45, 45] ++ bnd) (t.drop 1) = true ∨
      startsWith ([45, 45] ++ bnd) (t.drop 2) = true := by
  unfold boundaryMatchAt at h
  rcases orElse_eq_some h with h1 | ⟨-, h1⟩
  · split at h1
    · cases h3 : delimTail bnd (t.drop 2) with
      | none => rw [h3] at h1; simp at h1
      | some z => exact Or.inr (delimTail_startsWith h3)
    · simp at h1
  · rcases orElse_eq_some h1 with h2 | ⟨-, h2⟩ <;>
    · split at h2
      · cases h3 : delimTail bnd (t.drop 1) with
        | none => rw [h3] at h2; simp at h2
        | some z => exact Or.inl (delimTail_startsWith h3)
      · simp at h2

/-- Any successful `preamble_re` attempt has the delimiter literal at most
two bytes in. -/
theorem preambleMatchAt_occ {bnd t : Bytes} {x : Nat × Bool}
    (h : preambleMatchAt bnd t = some x) :
    startsWith ([45, 45] ++ bnd) t = true ∨
      startsWith ([45, 45] ++ bnd) (t.drop 1) = true ∨
      startsWith ([45, 45] ++ bnd) (t.drop 2) = true := by
  unfold preambleMatchAt at h
  rcases orElse_eq_some h with h1 | ⟨-, h1⟩
  · split at h1
    · cases h3 : delimTail bnd (t.drop 2) with
      | none => rw [h3] at h1; simp at h1
      | some z => exact Or.inr (Or.inr (delimTail_startsWith h3))
    · simp at h1
  · rcases orElse_eq_some h1 with h2 | ⟨-, h2⟩
    · split at h2
      · cases h3 : delimTail bnd (t.drop 1) with
        | none => rw [h3] at h2; simp at h2
        | some z => exact Or.inr (Or.inl (delimTail_startsWith h3))
      · simp at h2
    · rcases orElse_eq_some h2 with h3 | ⟨-, h3⟩
      · split at h3
        · cases h4 : delimTail bnd (t.drop 1) with
          | none => rw [h4] at h3; simp at h3
          | some z => exact Or.inr (Or.inl (delimTail_startsWith h4))
        · simp at h3
      · have h4 : t.drop 0 = t := rfl
        exact Or.inl (h4 ▸ delimTail_startsWith h3)

end SM

namespace SM

/-! ## Canonical (encoder-shaped) multipart messages

C1 quantifies over well-formed messages.  A message description fixes a
boundary, preamble, parts (each with a name, optional filename, extra
headers and a body) and an epilogue; `assemble` lays it out exactly as the
encoder serializes the corresponding event sequence (CRLF line endings, the
`Content-Disposition` header first, quoted name/filename). -/

/-- One part of a canonical message. -/
structure PartDesc where
  name : PyStr
  filename : Option PyStr
  extraHeaders : List (PyStr × PyStr)
  body : Bytes
deriving DecidableEq, Repr

/-- The `Content-Disposition` value the encoder writes for a part. -/
def cdValue (p : PartDesc) : Bytes :=
  S ("form-data; name=") ++ [34] ++ p.name ++ [34] ++
    (match p.filename with
     | some f => S ("; filename=") ++ [34] ++ f ++ [34]
     | none => [])

/-- A raw header line (without its line break). -/
def rawLine (nv : PyStr × PyStr) : Bytes := nv.1 ++ [58, 32] ++ nv.2

/-- Lines each followed by CRLF. -/
def linesBytes : List Bytes → Bytes
  | [] => []
  | l :: ls => l ++ 13 :: 10 :: linesBytes ls

/-- Lines joined by CRLF, with no trailing line break. -/
def linesCore : List Bytes → Bytes
  | [] => []
  | [l] => l
  | l :: ls => l ++ 13 :: 10 :: linesCore ls

/-- The header lines of a part as the decoder sees them. -/
def partLines (p : PartDesc) : List Bytes :=
  (S ("Content-Disposition: ") ++ cdValue p) :: p.extraHeaders.map rawLine

/-- A part's serialized header block (terminated by the blank line). -/
def headerBlock (p : PartDesc) : Bytes :=
  linesCore (partLines p) ++ [13, 10, 13, 10]

/-- A boundary delimiter with its leading line break (`final` selects the
terminating `--` form). -/
def delimOf (bnd : Bytes) (final : Bool) : Bytes :=
  13 :: 10 ::
    (([45, 45] ++ bnd) ++ (if final then 45 :: 45 :: [13, 10] else [13, 10]))

/-- The message bytes after a non-final delimiter has been consumed. -/
def tailBytes (bnd : Bytes) : List PartDesc → Bytes → Bytes
  | [], epi => epi
  | p :: ps, epi =>
    headerBlock p ++ p.body ++ delimOf bnd ps.isEmpty ++ tailBytes bnd ps epi

/-- A canonical multipart message description. -/
structure MessageDesc where
  boundary : Bytes
  pre : Bytes
  parts : List PartDesc
  epi : Bytes
deriving DecidableEq, Repr

/-- The serialized message. -/
def assemble (m : MessageDesc) : Bytes :=
  m.pre ++ delimOf m.boundary m.parts.isEmpty ++
    tailBytes m.boundary m.parts m.epi

/-- The headers dict the decoder parses for a part. -/
def partHeaders (p : PartDesc) : List (PyStr × PyStr) :=
  (S ("Content-Disposition"), cdValue p) :: p.extraHeaders

/-- The options dict `parse_options_header` returns for a part's
`Content-Disposition` value. -/
def cdExtra (p : PartDesc) : List (PyStr × Option PyStr) :=
  match p.filename with
  | none => [(S ("name"), some p.name)]
  | some f => [(S ("name"), some p.name), (S ("filename"), some f)]

/-- The field/file event the decoder emits for a part. -/
def partEvent (p : PartDesc) : Event :=
  match p.filename with
  | some f => Event.file (some p.name) (some f) (partHeaders p)
  | none => Event.field (some p.name) (partHeaders p)

/-- The event sequence for a list of parts. -/
def partsEvents : List PartDesc → List Event
  | [] => []
  | p :: ps => partEvent p :: Event.data p.body false :: partsEvents ps

/-- The full canonical event sequence of a message. -/
def canonEvents (m : MessageDesc) : List Event :=
  Event.preamble m.pre :: (partsEvents m.parts ++ [Event.epilogue m.epi])

/-- Characters allowed in names and filenames: latin-1 encodable and free of
quote, backslash, CR and LF. -/
def tokChar (c : Nat) : Prop :=
  c < 256 ∧ c ≠ 34 ∧ c ≠ 92 ∧ c ≠ 13 ∧ c ≠ 10

/-- Well-formedness of one part. -/
structure WfPart (bnd : Bytes) (p : PartDesc) : Prop where
  nameOk : ∀ c ∈ p.name, tokChar c
  filenameOk : ∀ f, p.filename = some f → ∀ c ∈ f, tokChar c
  hdrNameChars : ∀ nv ∈ p.extraHeaders, ∀ c ∈ nv.1,
    c < 256 ∧ c ≠ 58 ∧ c ≠ 13 ∧ c ≠ 10
  hdrNameNe : ∀ nv ∈ p.extraHeaders, nv.1 ≠ []
  hdrNameStrip : ∀ nv ∈ p.extraHeaders, strStrip nv.1 = nv.1
  hdrNameNotCD : ∀ nv ∈ p.extraHeaders, strLower nv.1 ≠ S ("content-disposition")
  hdrValChars : ∀ nv ∈ p.extraHeaders, ∀ c ∈ nv.2, c < 256 ∧ c ≠ 13 ∧ c ≠ 10
  hdrValStrip : ∀ nv ∈ p.extraHeaders, strStrip nv.2 = nv.2
  hdrNodup : (p.extraHeaders.map Prod.fst).Nodup
  bodyOk : containsSub p.body ([45, 45] ++ bnd) = false

/-- Well-formedness of a whole message. -/
structure WfMessage (m : MessageDesc) : Prop where
  bndNe : m.boundary ≠ []
  bndOk : ∀ c ∈ m.boundary, c ≠ 13 ∧ c ≠ 10
  preOk : containsSub m.pre ([45, 45] ++ m.boundary) = false
  partsOk : ∀ p ∈ m.parts, WfPart m.boundary p

end SM

namespace SM

theorem delimOf_false_append (bnd X : Bytes) :
    delimOf bnd false ++ X =
      13 :: 10 :: (([45, 45] ++ bnd) ++ (13 :: 10 :: X)) := by
  simp [delimOf, List.append_assoc]

theorem delimOf_true_append (bnd X : Bytes) :
    delimOf bnd true ++ X =
      13 :: 10 :: (([45, 45] ++ bnd) ++ (45 :: 45 :: 13 :: 10 :: X)) := by
  simp [delimOf, List.append_assoc]

theorem pat_ok {bnd : Bytes} (hbndOk : ∀ c ∈ bnd, c ≠ 13 ∧ c ≠ 10) :
    ∀ c ∈ [45, 45] ++ bnd, c ≠ 13 ∧ c ≠ 10 := by
  intro c hc
  rcases List.mem_append.mp hc with h | h
  · have hc45 : c = 45 := by simpa using h
    subst hc45
    simp
  · exact hbndOk c h

/-- The preamble search on a well-formed message finds exactly the first
boundary delimiter. -/
theorem preambleSearch_junction (bnd A tail : Bytes) (final : Bool)
    (hbndOk : ∀ c ∈ bnd, c ≠ 13 ∧ c ≠ 10)
    (hA : containsSub A ([45, 45] ++ bnd) = false) :
    reSearch (preambleMatchAt bnd) (A ++ (delimOf bnd final ++ tail)) 0 =
      some (A.length, (bnd.length + (if final then 8 else 6), final)) := by
  have hpatne : ([45, 45] ++ bnd) ≠ [] := by simp
  have hpatc := pat_ok hbndOk
  cases final with
  | false =>
    rw [delimOf_false_append]
    apply reSearch_intro
    · simp only [List.length_append, List.length_cons]
      omega
    · rw [List.drop_left]
      rw [preambleMatchAt_cont]
      norm_num
    · intro i hi
      cases h : preambleMatchAt bnd
          ((A ++ 13 :: 10 :: (([45, 45] ++ bnd) ++ (13 :: 10 :: tail))).drop
            i) with
      | none => rfl
      | some x =>
        exfalso
        rcases preambleMatchAt_occ h with h1 | h1 | h1
        · exact no_occurrence_before_junction hpatne hpatc hA (by omega) h1
        · rw [List.drop_drop] at h1
          exact no_occurrence_before_junction hpatne hpatc hA (by omega) h1
        · rw [List.drop_drop] at h1
          exact no_occurrence_before_junction hpatne hpatc hA (by omega) h1
  | true =>
    rw [delimOf_true_append]
    apply reSearch_intro
    · simp only [List.length_append, List.length_cons]
      omega
    · rw [List.drop_left]
      rw [preambleMatchAt_final]
      norm_num
    · intro i hi
      cases h : preambleMatchAt bnd
          ((A ++ 13 :: 10 ::
            (([45, 45] ++ bnd) ++ (45 :: 45 :: 13 :: 10 :: tail))).drop
            i) with
      | none => rfl
      | some x =>
        exfalso
        rcases preambleMatchAt_occ h with h1 | h1 | h1
        · exact no_occurrence_before_junction hpatne hpatc hA (by omega) h1
        · rw [List.drop_drop] at h1
          exact no_occurrence_before_junction hpatne hpatc hA (by omega) h1
        · rw [List.drop_drop] at h1
          exact no_occurrence_before_junction hpatne hpatc hA (by omega) h1

/-- The body search in the `DATA` stage finds exactly the delimiter that
follows the body. -/
theorem boundarySearch_junction (bnd A tail : Bytes) (final : Bool)
    (hbndOk : ∀ c ∈ bnd, c ≠ 13 ∧ c ≠ 10)
    (hA : containsSub A ([45, 45] ++ bnd) = false) :
    reSearch (boundaryMatchAt bnd) (A ++ (delimOf bnd final ++ tail)) 0 =
      some (A.length, (bnd.length + (if final then 8 else 6), final)) := by
  have hpatne : ([45, 45] ++ bnd) ≠ [] := by simp
  have hpatc := pat_ok hbndOk
  cases final with
  | false =>
    rw [delimOf_false_append]
    apply reSearch_intro
    · simp only [List.length_append, List.length_cons]
      omega
    · rw [List.drop_left]
      rw [boundaryMatchAt_cont]
      norm_num
    · intro i hi
      cases h : boundaryMatchAt bnd
          ((A ++ 13 :: 10 :: (([45, 45] ++ bnd) ++ (13 :: 10 :: tail))).drop
            i) with
      | none => rfl
      | some x =>
        exfalso
        rcases boundaryMatchAt_occ h with h1 | h1 <;>
        · rw [List.drop_drop] at h1
          exact no_occurrence_before_junction hpatne hpatc hA (by omega) h1
  | true =>
    rw [delimOf_true_append]
    apply reSearch_intro
    · simp only [List.length_append, List.length_cons]
      omega
    · rw [List.drop_left]
      rw [boundaryMatchAt_final]
      norm_num
    · intro i hi
      cases h : boundaryMatchAt bnd
          ((A ++ 13 :: 10 ::
            (([45, 45] ++ bnd) ++ (45 :: 45 :: 13 :: 10 :: tail))).drop
            i) with
      | none => rfl
      | some x =>
        exfalso
        rcases boundaryMatchAt_occ h with h1 | h1 <;>
        · rw [List.drop_drop] at h1
          exact no_occurrence_before_junction hpatne hpatc hA (by omega) h1

end SM

namespace SM

theorem blankAt_none_head {c : Nat} (t : Bytes) (h13 : c ≠ 13)
    (h10 : c ≠ 10) : blankAt (c :: t) = none := by
  simp [blankAt, startsWith, Ne.symm h13, Ne.symm h10]

theorem linesCore_cons_head {c : Nat} {t : Bytes} (ls : List Bytes) :
    ∃ Y, linesCore ((c :: t) :: ls) = c :: Y := by
  cases ls with
  | nil => exact ⟨t, rfl⟩
  | cons l' ls' => exact ⟨t ++ 13 :: 10 :: linesCore (l' :: ls'), rfl⟩

/-- No blank-line match strictly inside the joined header lines. -/
theorem blank_none_core :
    ∀ (ls : List Bytes) (rest : Bytes) (i : Nat),
      (∀ l ∈ ls, l ≠ [] ∧ ∀ c ∈ l, c ≠ 13 ∧ c ≠ 10) →
      i < (linesCore ls).length →
      blankAt ((linesCore ls ++ rest).drop i) = none := by
  intro ls
  induction ls with
  | nil =>
    intro rest i hwf hi
    simp [linesCore] at hi
  | cons l ls ih =>
    intro rest i hwf hi
    obtain ⟨hlne, hlc⟩ := hwf l (List.mem_cons_self l ls)
    cases ls with
    | nil =>
      simp only [linesCore] at hi ⊢
      rw [List.drop_append_of_le_length (Nat.le_of_lt hi),
        List.drop_eq_getElem_cons hi, List.cons_append]
      have hmem := List.getElem_mem hi
      exact blankAt_none_head _ (hlc _ hmem).1 (hlc _ hmem).2
    | cons l' ls' =>
      obtain ⟨hl'ne, hl'c⟩ := hwf l' (by simp)
      obtain ⟨c', t', rfl⟩ : ∃ c' t', l' = c' :: t' := by
        cases l' with
        | nil => exact absurd rfl hl'ne
        | cons a b => exact ⟨a, b, rfl⟩
      have hc' := hl'c c' (by simp)
      simp only [linesCore] at hi ⊢
      rw [List.length_append, List.length_cons, List.length_cons] at hi
      by_cases hil : i < l.length
      · rw [List.append_assoc, List.cons_append, List.cons_append,
          List.drop_append_of_le_length (Nat.le_of_lt hil),
          List.drop_eq_getElem_cons hil, List.cons_append]
        have hmem := List.getElem_mem hil
        exact blankAt_none_head _ (hlc _ hmem).1 (hlc _ hmem).2
      · obtain ⟨Y, hY⟩ := linesCore_cons_head (c := c') (t := t') ls'
        by_cases hil2 : i = l.length
        · subst hil2
          rw [List.append_assoc, List.drop_append_of_le_length (Nat.le_refl _),
            List.drop_length]
          rw [hY, List.nil_append, List.cons_append, List.cons_append,
            List.cons_append]
          simp [blankAt, startsWith, Ne.symm hc'.1, Ne.symm hc'.2]
        · by_cases hil3 : i = l.length + 1
          · subst hil3
            have : l ++ 13 :: 10 :: linesCore ((c' :: t') :: ls') ++ rest =
                (l ++ [13]) ++ (10 :: (linesCore ((c' :: t') :: ls') ++ rest)) := by
              simp
            rw [this]
            have hlen : l.length + 1 ≤ (l ++ [13]).length := by simp
            rw [List.drop_append_of_le_length hlen]
            have : (l ++ [13]).drop (l.length + 1) = [] := by
              apply List.drop_eq_nil_of_le
              simp
            rw [this, List.nil_append, hY, List.cons_append]
            simp [blankAt, startsWith, Ne.symm hc'.1, Ne.symm hc'.2]
          · have hge : l.length + 2 ≤ i := by omega
            have hsplit : l ++ 13 :: 10 :: linesCore ((c' :: t') :: ls') ++
                rest =
                (l ++ [13, 10]) ++ (linesCore ((c' :: t') :: ls') ++ rest) := by
              simp
            rw [hsplit]
            have hlen2 : (l ++ [13, 10]).length = l.length + 2 := by simp
            have hieq : i = (l ++ [13, 10]).length + (i - l.length - 2) := by
              rw [hlen2]
              omega
            rw [hieq, List.drop_append]
            exact ih rest (i - l.length - 2) (fun x hx => hwf x (by simp [hx]))
              (by omega)

/-- The blank-line search on a canonical header block finds exactly the
terminating blank line. -/
theorem blank_search_core (ls : List Bytes) (rest : Bytes)
    (hwf : ∀ l ∈ ls, l ≠ [] ∧ ∀ c ∈ l, c ≠ 13 ∧ c ≠ 10) :
    reSearch blankAt (linesCore ls ++ (13 :: 10 :: 13 :: 10 :: rest)) 0 =
      some ((linesCore ls).length, 4) := by
  apply reSearch_intro
  · simp
  · rw [List.drop_left]
    rfl
  · intro i hi
    exact blank_none_core ls _ i hwf hi

end SM

namespace SM

/-! ## Strip, fold and splitlines on canonical header data -/

theorem length_dropWhile_le {p : Nat → Bool} (l : List Nat) :
    (l.dropWhile p).length ≤ l.length := by
  induction l with
  | nil => simp
  | cons c t ih =>
    rw [List.dropWhile]
    cases p c
    · simp
    · simp
      omega

theorem strStrip_head {c : Nat} {t : PyStr}
    (h : strStrip (c :: t) = c :: t) : isStrWs c = false := by
  by_contra hc
  rw [Bool.not_eq_false] at hc
  have h1 : strStrip (c :: t) = strStrip t := by
    unfold strStrip
    rw [List.dropWhile_cons]
    simp [hc]
  have h2 : (strStrip t).length ≤ t.length := by
    unfold strStrip
    calc ((t.dropWhile (fun c => isStrWs c)).reverse.dropWhile
            (fun c => isStrWs c)).reverse.length
        = ((t.dropWhile (fun c => isStrWs c)).reverse.dropWhile
            (fun c => isStrWs c)).length := by rw [List.length_reverse]
      _ ≤ (t.dropWhile (fun c => isStrWs c)).reverse.length :=
          length_dropWhile_le _
      _ = (t.dropWhile (fun c => isStrWs c)).length := by
          rw [List.length_reverse]
      _ ≤ t.length := length_dropWhile_le _
  have hlen := congrArg List.length h
  rw [h1] at hlen
  simp only [List.length_cons] at hlen
  omega

theorem strStrip_space_cons {v : PyStr} (h : strStrip v = v) :
    strStrip (32 :: v) = v := by
  cases v with
  | nil => rfl
  | cons c t =>
    have hc := strStrip_head h
    have e1 : List.dropWhile (fun c => isStrWs c) (32 :: c :: t) =
        List.dropWhile (fun c => isStrWs c) (c :: t) := by
      rw [List.dropWhile_cons]
      norm_num [isStrWs]
    have e2 : List.dropWhile (fun c => isStrWs c) (c :: t) = c :: t := by
      rw [List.dropWhile_cons]
      simp [hc]
    unfold strStrip at h ⊢
    rw [e1, e2]
    rw [e2] at h
    exact h

theorem strStrip_eq_self {v : PyStr}
    (hh : ∀ c, v.head? = some c → isStrWs c = false)
    (hl : ∀ c, v.getLast? = some c → isStrWs c = false) :
    strStrip v = v := by
  cases v with
  | nil => rfl
  | cons c t =>
    have hc : isStrWs c = false := hh c rfl
    have e2 : List.dropWhile (fun c => isStrWs c) (c :: t) = c :: t := by
      rw [List.dropWhile_cons]
      simp [hc]
    unfold strStrip
    rw [e2]
    cases hrev : (c :: t).reverse with
    | nil =>
      have := congrArg List.length hrev
      simp at this
    | cons d u =>
      have hd : isStrWs d = false := by
        apply hl
        rw [← List.head?_reverse, hrev]
        rfl
      have e3 : List.dropWhile (fun c => isStrWs c) (d :: u) = d :: u := by
        rw [List.dropWhile_cons]
        simp [hd]
      rw [e3]
      rw [← hrev]
      exact List.reverse_reverse _

end SM

namespace SM

theorem foldCont_append {l : Bytes} (hl : ∀ c ∈ l, c ≠ 13 ∧ c ≠ 10)
    (t : Bytes) : foldContinuations (l ++ t) = l ++ foldContinuations t := by
  induction l with
  | nil => rfl
  | cons c l' ih =>
    have hc := hl c (by simp)
    rw [List.cons_append]
    have ih' := ih (fun x hx => hl x (List.mem_cons_of_mem _ hx))
    simp [foldContinuations, hc.1, hc.2, ih']

theorem foldCont_sep (u : Nat) (t : Bytes) (h32 : u ≠ 32) (h9 : u ≠ 9) :
    foldContinuations (13 :: 10 :: u :: t) =
      13 :: 10 :: foldContinuations (u :: t) := by
  simp [foldContinuations, h32, h9]

theorem foldCont_linesCore :
    ∀ (L : List Bytes),
      (∀ l ∈ L, l ≠ [] ∧ (∀ c ∈ l, c ≠ 13 ∧ c ≠ 10) ∧
        (∀ c t, l = c :: t → c ≠ 32 ∧ c ≠ 9)) →
      foldContinuations (linesCore L) = linesCore L := by
  intro L
  induction L with
  | nil => intro _; rfl
  | cons l L' ih =>
    intro h
    cases L' with
    | nil =>
      obtain ⟨hne, hchars, -⟩ := h l (by simp)
      show foldContinuations l = l
      calc foldContinuations l = foldContinuations (l ++ []) := by
            rw [List.append_nil]
        _ = l ++ foldContinuations [] := foldCont_append hchars []
        _ = l := by simp [foldContinuations]
    | cons l2 L'' =>
      obtain ⟨hne, hchars, -⟩ := h l (by simp)
      obtain ⟨hne2, hchars2, hhead2⟩ := h l2 (by simp)
      obtain ⟨c2, t2, rfl⟩ : ∃ c2 t2, l2 = c2 :: t2 := by
        cases l2 with
        | nil => exact absurd rfl hne2
        | cons a b => exact ⟨a, b, rfl⟩
      have hc2 := hhead2 c2 t2 rfl
      obtain ⟨Y, hY⟩ := linesCore_cons_head (c := c2) (t := t2) L''
      show foldContinuations (l ++ 13 :: 10 :: linesCore ((c2 :: t2) :: L'')) =
        l ++ 13 :: 10 :: linesCore ((c2 :: t2) :: L'')
      rw [foldCont_append hchars, hY, foldCont_sep c2 Y hc2.1 hc2.2, ← hY,
        ih (fun x hx => h x (List.mem_cons_of_mem _ hx))]

theorem splitlinesAux_noCRLF {l : Bytes}
    (hl : ∀ c ∈ l, c ≠ 13 ∧ c ≠ 10) :
    ∀ acc, splitlinesAux l acc =
      if acc.reverse ++ l = [] then [] else [acc.reverse ++ l] := by
  induction l with
  | nil =>
    intro acc
    simp [splitlinesAux]
  | cons c l' ih =>
    intro acc
    have hc := hl c (by simp)
    have ih' := ih (fun x hx => hl x (List.mem_cons_of_mem _ hx)) (c :: acc)
    rw [show splitlinesAux (c :: l') acc = splitlinesAux l' (c :: acc) by
      simp [splitlinesAux, hc.1, hc.2]]
    rw [ih']
    simp

theorem splitlinesAux_sep {l : Bytes} (hl : ∀ c ∈ l, c ≠ 13 ∧ c ≠ 10) :
    ∀ (t : Bytes) (acc : Bytes),
      splitlinesAux (l ++ 13 :: 10 :: t) acc =
        (acc.reverse ++ l) :: splitlinesAux t [] := by
  induction l with
  | nil =>
    intro t acc
    simp [splitlinesAux]
  | cons c l' ih =>
    intro t acc
    have hc := hl c (by simp)
    rw [List.cons_append]
    rw [show splitlinesAux (c :: (l' ++ 13 :: 10 :: t)) acc =
        splitlinesAux (l' ++ 13 :: 10 :: t) (c :: acc) by
      simp [splitlinesAux, hc.1, hc.2]]
    rw [ih (fun x hx => hl x (List.mem_cons_of_mem _ hx)) t (c :: acc)]
    simp

theorem pySplitlines_linesCore :
    ∀ (L : List Bytes),
      (∀ l ∈ L, l ≠ [] ∧ ∀ c ∈ l, c ≠ 13 ∧ c ≠ 10) →
      pySplitlines (linesCore L) = L := by
  intro L
  induction L with
  | nil => intro _; rfl
  | cons l L' ih =>
    intro h
    obtain ⟨hne, hchars⟩ := h l (by simp)
    cases L' with
    | nil =>
      show splitlinesAux l [] = [l]
      rw [splitlinesAux_noCRLF hchars []]
      simp [hne]
    | cons l2 L'' =>
      show splitlinesAux (l ++ 13 :: 10 :: linesCore (l2 :: L'')) [] =
        l :: (l2 :: L'')
      rw [splitlinesAux_sep hchars _ []]
      simp only [List.reverse_nil, List.nil_append]
      rw [show splitlinesAux (linesCore (l2 :: L'')) [] =
          pySplitlines (linesCore (l2 :: L'')) from rfl]
      rw [ih (fun x hx => h x (List.mem_cons_of_mem _ hx))]

theorem bytesStrip_ne_nil {c : Nat} {t : Bytes} (hc : isBytesWs c = false) :
    bytesStrip (c :: t) ≠ [] := by
  intro hcontra
  unfold bytesStrip at hcontra
  rw [List.dropWhile_cons] at hcontra
  simp only [hc, Bool.false_eq_true, if_false] at hcontra
  rw [List.reverse_eq_nil_iff, List.dropWhile_eq_nil_iff] at hcontra
  have := hcontra c (by simp)
  rw [hc] at this
  cases this

theorem splitFirstColon_append {u : PyStr} (hu : ∀ c ∈ u, c ≠ 58)
    (v : PyStr) : splitFirstColon (u ++ 58 :: v) = some (u, v) := by
  induction u with
  | nil => simp [splitFirstColon]
  | cons c u' ih =>
    have hc := hu c (by simp)
    rw [List.cons_append, splitFirstColon]
    simp only [hc, if_false]
    rw [ih (fun x hx => hu x (List.mem_cons_of_mem _ hx))]
    rfl

theorem dictSet_append {α : Type} (d : List (PyStr × α)) (k : PyStr) (v : α)
    (hk : ∀ e ∈ d, e.1 ≠ k) : dictSet d k v = d ++ [(k, v)] := by
  induction d with
  | nil => rfl
  | cons e d' ih =>
    obtain ⟨k', v'⟩ := e
    have hk' := hk (k', v') (by simp)
    rw [dictSet]
    simp only [hk', if_false]
    rw [ih (fun x hx => hk x (List.mem_cons_of_mem _ hx))]
    rfl

theorem foldl_dictSet_stripped :
    ∀ (pairs : List (PyStr × PyStr)) (acc : List (PyStr × PyStr)),
      (pairs.map (fun nv => strStrip nv.1)).Nodup →
      (∀ e ∈ acc, ∀ nv ∈ pairs, e.1 ≠ strStrip nv.1) →
      pairs.foldl (fun d nv => dictSet d (strStrip nv.1) (strStrip nv.2))
        acc = acc ++ pairs.map (fun nv => (strStrip nv.1, strStrip nv.2)) := by
  intro pairs
  induction pairs with
  | nil =>
    intro acc _ _
    simp
  | cons nv pairs ih =>
    intro acc hnodup hdisj
    rw [List.foldl_cons,
      dictSet_append acc (strStrip nv.1) (strStrip nv.2)
        (fun e he => hdisj e he nv (by simp))]
    rw [List.map_cons, List.nodup_cons] at hnodup
    rw [ih (acc ++ [(strStrip nv.1, strStrip nv.2)]) hnodup.2 ?_]
    · simp
    · intro e he nv' hnv'
      rcases List.mem_append.mp he with h | h
      · exact hdisj e h nv' (List.mem_cons_of_mem _ hnv')
      · have : e = (strStrip nv.1, strStrip nv.2) := by simpa using h
        subst this
        intro hcontra
        apply hnodup.1
        have hmem := List.mem_map_of_mem (fun nv => strStrip nv.1) hnv'
        simp only at hmem hcontra
        rw [hcontra]
        exact hmem

end SM

namespace SM

/-! ## Header parsing on a canonical part -/

theorem not_ws_32_9 {c : Nat} (h : isStrWs c = false) : c ≠ 32 ∧ c ≠ 9 := by
  simp [isStrWs] at h
  exact ⟨by omega, by omega⟩

theorem isBytesWs_of_not_strWs {c : Nat} (h : isStrWs c = false) :
    isBytesWs c = false := by
  simp [isStrWs] at h
  simp [isBytesWs]
  omega

theorem cdValue_chars {bnd : Bytes} {p : PartDesc} (hp : WfPart bnd p) :
    ∀ c ∈ cdValue p, c < 256 ∧ c ≠ 13 ∧ c ≠ 10 := by
  intro c hc
  have hlit : ∀ x ∈ S ("form-data; name="), x < 256 ∧ x ≠ 13 ∧ x ≠ 10 := by
    decide
  have hlit2 : ∀ x ∈ S ("; filename="), x < 256 ∧ x ≠ 13 ∧ x ≠ 10 := by
    decide
  cases hf : p.filename with
  | none =>
    simp only [cdValue, hf, List.append_nil, List.mem_append,
      List.mem_singleton] at hc
    rcases hc with ((h | rfl) | h) | rfl
    · exact hlit c h
    · exact ⟨by omega, by omega, by omega⟩
    · have := hp.nameOk c h
      exact ⟨this.1, this.2.2.2.1, this.2.2.2.2⟩
    · exact ⟨by omega, by omega, by omega⟩
  | some f =>
    simp only [cdValue, hf, List.mem_append, List.mem_singleton] at hc
    rcases hc with (((h | rfl) | h) | rfl) | ((h | rfl) | h) | rfl
    · exact hlit c h
    · exact ⟨by omega, by omega, by omega⟩
    · have := hp.nameOk c h
      exact ⟨this.1, this.2.2.2.1, this.2.2.2.2⟩
    · exact ⟨by omega, by omega, by omega⟩
    · exact hlit2 c h
    · exact ⟨by omega, by omega, by omega⟩
    · have := hp.filenameOk f hf c h
      exact ⟨this.1, this.2.2.2.1, this.2.2.2.2⟩
    · exact ⟨by omega, by omega, by omega⟩

theorem partLines_wf {bnd : Bytes} {p : PartDesc} (hp : WfPart bnd p) :
    ∀ l ∈ partLines p, l ≠ [] ∧ (∀ c ∈ l, c ≠ 13 ∧ c ≠ 10) ∧
      (∀ c t, l = c :: t → isStrWs c = false) := by
  intro l hl
  rw [partLines] at hl
  rcases List.mem_cons.mp hl with rfl | hl
  · refine ⟨by simp [S], ?_, ?_⟩
    · intro c hc
      rcases List.mem_append.mp hc with h | h
      · have hlit : ∀ x ∈ S ("Content-Disposition: "), x ≠ 13 ∧ x ≠ 10 := by
          decide
        exact hlit c h
      · exact (cdValue_chars hp c h).2
    · intro c t hct
      have h67 : (S ("Content-Disposition: ") ++ cdValue p).head? =
          some 67 := rfl
      rw [hct] at h67
      simp at h67
      subst h67
      decide
  · obtain ⟨nv, hnv, rfl⟩ := List.mem_map.mp hl
    refine ⟨by simp [rawLine], ?_, ?_⟩
    · intro c hc
      rw [rawLine] at hc
      rcases List.mem_append.mp hc with h | h
      · rcases List.mem_append.mp h with h1 | h1
        · exact ⟨(hp.hdrNameChars nv hnv c h1).2.2.1,
            (hp.hdrNameChars nv hnv c h1).2.2.2⟩
        · have h2 : c = 58 ∨ c = 32 := by simpa using h1
          rcases h2 with rfl | rfl <;> exact ⟨by omega, by omega⟩
      · exact (hp.hdrValChars nv hnv c h).2
    · intro c t hct
      obtain ⟨a, u, ha⟩ : ∃ a u, nv.1 = a :: u := by
        cases h : nv.1 with
        | nil => exact absurd h (hp.hdrNameNe nv hnv)
        | cons a u => exact ⟨a, u, rfl⟩
      have hstrip := hp.hdrNameStrip nv hnv
      rw [ha] at hstrip
      have hws := strStrip_head hstrip
      have hshape : rawLine nv = a :: (u ++ [58, 32] ++ nv.2) := by
        rw [rawLine, ha]
        rfl
      rw [hshape] at hct
      injection hct with h1 _
      rw [← h1]
      exact hws

theorem parseHeaderLines_map_rawLine :
    ∀ (l : List (PyStr × PyStr)), (∀ nv ∈ l, ∀ c ∈ nv.1, c ≠ 58) →
      parseHeaderLines (l.map rawLine) =
        Except.ok (l.map (fun nv => (nv.1, 32 :: nv.2))) := by
  intro l
  induction l with
  | nil => intro _; rfl
  | cons nv l ih =>
    intro h
    rw [List.map_cons]
    rw [show parseHeaderLines (rawLine nv :: l.map rawLine) =
        (match splitFirstColon (rawLine nv) with
         | none => Except.error PyErr.headerLineNoColon
         | some x =>
           match parseHeaderLines (l.map rawLine) with
           | Except.error e => Except.error e
           | Except.ok pairs => Except.ok (x :: pairs)) from rfl]
    have hsp : splitFirstColon (rawLine nv) = some (nv.1, 32 :: nv.2) := by
      rw [rawLine, List.append_assoc]
      exact splitFirstColon_append (h nv (by simp)) _
    rw [hsp, ih (fun x hx => h x (List.mem_cons_of_mem _ hx))]
    rfl

theorem parseHeaderLines_canonical {bnd : Bytes} {p : PartDesc}
    (hp : WfPart bnd p) :
    parseHeaderLines (partLines p) = Except.ok
      ((S ("Content-Disposition"), 32 :: cdValue p) ::
        p.extraHeaders.map (fun nv => (nv.1, 32 :: nv.2))) := by
  rw [partLines]
  rw [show parseHeaderLines
      ((S ("Content-Disposition: ") ++ cdValue p) ::
        p.extraHeaders.map rawLine) =
      (match splitFirstColon (S ("Content-Disposition: ") ++ cdValue p) with
       | none => Except.error PyErr.headerLineNoColon
       | some x =>
         match parseHeaderLines (p.extraHeaders.map rawLine) with
         | Except.error e => Except.error e
         | Except.ok pairs => Except.ok (x :: pairs)) from rfl]
  have hsp : splitFirstColon (S ("Content-Disposition: ") ++ cdValue p) =
      some (S ("Content-Disposition"), 32 :: cdValue p) := by
    have hc : S ("Content-Disposition: ") =
        S ("Content-Disposition") ++ [58, 32] := by decide
    rw [hc, List.append_assoc]
    exact splitFirstColon_append (by decide) _
  rw [hsp, parseHeaderLines_map_rawLine p.extraHeaders
    (fun nv hnv c hc => (hp.hdrNameChars nv hnv c hc).2.1)]

end SM

namespace SM

theorem cdValue_last (p : PartDesc) : (cdValue p).getLast? = some 34 := by
  rw [← List.head?_reverse]
  cases hf : p.filename with
  | none => simp [cdValue, hf]
  | some f => simp [cdValue, hf]

theorem cdValue_strip (p : PartDesc) : strStrip (cdValue p) = cdValue p := by
  apply strStrip_eq_self
  · intro c h
    rw [show (cdValue p).head? = some 102 from rfl] at h
    injection h with h1
    rw [← h1]
    decide
  · intro c h
    rw [cdValue_last p] at h
    injection h with h1
    rw [← h1]
    decide

theorem parseHeaders_canonical {bnd : Bytes} {p : PartDesc}
    (hp : WfPart bnd p) :
    parseHeaders (linesCore (partLines p)) = Except.ok (partHeaders p) := by
  have hwf := partLines_wf hp
  have h1 : foldContinuations (linesCore (partLines p)) =
      linesCore (partLines p) := by
    apply foldCont_linesCore
    intro l hl
    obtain ⟨hne, hch, hhd⟩ := hwf l hl
    exact ⟨hne, hch, fun c t hct => not_ws_32_9 (hhd c t hct)⟩
  have h2 : pySplitlines (linesCore (partLines p)) = partLines p := by
    apply pySplitlines_linesCore
    intro l hl
    exact ⟨(hwf l hl).1, (hwf l hl).2.1⟩
  have h3 : List.filter (fun l => decide (bytesStrip l ≠ []))
      (partLines p) = partLines p := by
    apply List.filter_eq_self.mpr
    intro l hl
    simp only [decide_eq_true_eq]
    obtain ⟨hne, hch, hhd⟩ := hwf l hl
    obtain ⟨c, t, rfl⟩ : ∃ c t, l = c :: t := by
      cases l with
      | nil => exact absurd rfl hne
      | cons c t => exact ⟨c, t, rfl⟩
    exact bytesStrip_ne_nil (isBytesWs_of_not_strWs (hhd c t rfl))
  have htail : List.map ((fun nv => strStrip nv.1) ∘
      (fun nv : PyStr × PyStr => (nv.1, 32 :: nv.2))) p.extraHeaders =
      List.map Prod.fst p.extraHeaders := by
    apply List.map_congr_left
    intro nv hnv
    simp only [Function.comp]
    exact hp.hdrNameStrip nv hnv
  have hkeys : ((S ("Content-Disposition"), 32 :: cdValue p) ::
      p.extraHeaders.map (fun nv => (nv.1, 32 :: nv.2))).map
        (fun nv => strStrip nv.1) =
      S ("Content-Disposition") :: p.extraHeaders.map Prod.fst := by
    rw [List.map_cons, List.map_map]
    simp only
    rw [show strStrip (S ("Content-Disposition")) =
      S ("Content-Disposition") from by decide]
    exact congrArg (List.cons _) htail
  have hnodup : (((S ("Content-Disposition"), 32 :: cdValue p) ::
      p.extraHeaders.map (fun nv => (nv.1, 32 :: nv.2))).map
        (fun nv => strStrip nv.1)).Nodup := by
    rw [hkeys]
    refine List.nodup_cons.mpr ⟨?_, hp.hdrNodup⟩
    intro hmem
    obtain ⟨nv, hnv, heq⟩ := List.mem_map.mp hmem
    apply hp.hdrNameNotCD nv hnv
    rw [show Prod.fst nv = nv.1 from rfl] at heq
    rw [heq]
    decide
  have hmap : ((S ("Content-Disposition"), 32 :: cdValue p) ::
      p.extraHeaders.map (fun nv => (nv.1, 32 :: nv.2))).map
        (fun nv => (strStrip nv.1, strStrip nv.2)) = partHeaders p := by
    rw [List.map_cons, List.map_map, partHeaders]
    simp only
    rw [show strStrip (S ("Content-Disposition")) =
      S ("Content-Disposition") from by decide]
    rw [strStrip_space_cons (cdValue_strip p)]
    have hid : ∀ nv ∈ p.extraHeaders,
        ((fun nv => (strStrip nv.1, strStrip nv.2)) ∘
          (fun nv : PyStr × PyStr => (nv.1, 32 :: nv.2))) nv = nv := by
      intro nv hnv
      simp only [Function.comp]
      rw [hp.hdrNameStrip nv hnv,
        strStrip_space_cons (hp.hdrValStrip nv hnv)]
    rw [List.map_congr_left hid]
    simp
  simp only [parseHeaders]
  rw [h1, h2, h3, parseHeaderLines_canonical hp]
  dsimp only
  rw [foldl_dictSet_stripped _ []
    hnodup (fun e he => absurd he (List.not_mem_nil e))]
  rw [List.nil_append, hmap]

end SM

namespace SM

/-! ## `parse_options_header` on a canonical Content-Disposition value -/

theorem keyChar_not_ws {c : Nat} (h : isKeyChar c = true) :
    isStrWs c = false := by
  by_contra hc
  rw [Bool.not_eq_false] at hc
  simp [isKeyChar, hc] at h

theorem runLength_stop {p : Nat → Bool} {s : Bytes}
    (h : ∀ c t, s = c :: t → p c = false) : runLength p s = 0 := by
  cases s with
  | nil => rfl
  | cons c t =>
    rw [runLength, h c t rfl]
    simp

theorem runLength_append {p : Nat → Bool} {l : Bytes}
    (hl : ∀ c ∈ l, p c = true) (s : Bytes) :
    runLength p (l ++ s) = l.length + runLength p s := by
  induction l with
  | nil => simp
  | cons c l' ih =>
    have hc := hl c (by simp)
    rw [List.cons_append, runLength, hc]
    simp only [if_true]
    rw [ih (fun x hx => hl x (List.mem_cons_of_mem _ hx))]
    simp
    omega

theorem quotedAux_append {n : PyStr}
    (hn : ∀ c ∈ n, c ≠ 34 ∧ c ≠ 92) (t : PyStr) :
    quotedAux (n ++ 34 :: t) = some (n.length + 1) := by
  induction n with
  | nil => simp [quotedAux.eq_def]
  | cons c n' ih =>
    have hc := hn c (by simp)
    have ih' := ih (fun x hx => hn x (List.mem_cons_of_mem _ hx))
    rw [List.cons_append]
    rw [quotedAux.eq_def]
    simp [hc.1, hc.2, ih']

theorem take_quoted (n t : PyStr) :
    (34 :: (n ++ 34 :: t)).take (n.length + 2) = 34 :: (n ++ [34]) := by
  show (34 :: (n ++ 34 :: t)).take (n.length + 1 + 1) = 34 :: (n ++ [34])
  rw [List.take_succ_cons]
  congr 1
  rw [show (34 : Nat) :: t = [34] ++ t from rfl, ← List.append_assoc]
  rw [show n.length + 1 = (n ++ [34]).length from by simp]
  exact List.take_left _ _

theorem replacePair_id {a : Nat} (b r : Nat) {s : PyStr}
    (h : ∀ c ∈ s, c ≠ a) : replacePair a b r s = s := by
  induction s with
  | nil => rfl
  | cons x rest ih =>
    cases rest with
    | nil => rfl
    | cons y r2 =>
      have hx := h x (by simp)
      rw [replacePair]
      simp only [hx, decide_False, Bool.false_and, Bool.false_eq_true,
        if_false]
      rw [show replacePair a b r (y :: r2) = y :: r2 from
        ih (fun c hc => h c (List.mem_cons_of_mem _ hc))]

theorem unquote_quoted {n : PyStr} (hn : ∀ c ∈ n, c ≠ 34 ∧ c ≠ 92)
    (isF : Bool) : unquoteHeaderValue (34 :: (n ++ [34])) isF = n := by
  have hlast : (34 :: (n ++ [34])).getLast? = some 34 := by
    rw [← List.head?_reverse]
    simp
  have htake : ((34 :: (n ++ [34])).drop 1).dropLast.take 2 ≠ [92, 92] := by
    simp only [List.drop_succ_cons, List.drop_zero, List.dropLast_concat]
    intro hcontra
    have h92 : (92 : Nat) ∈ n.take 2 := by
      rw [hcontra]
      simp
    exact (hn 92 (List.take_subset 2 n h92)).2 rfl
  rw [unquoteHeaderValue]
  simp only [hlast, decide_True, Bool.and_true, if_true, htake,
    List.drop_succ_cons, List.drop_zero, List.dropLast_concat]
  have h92 : ∀ c ∈ n, c ≠ 92 := fun c hc => (hn c hc).2
  rw [replacePair_id 92 92 h92, replacePair_id 34 34 h92]
  simp [htake]

end SM

namespace SM

theorem quotedMatch_not_quote {x : PyStr}
    (h : ∀ c t, x = c :: t → c ≠ 34) : quotedMatch x = none := by
  rw [quotedMatch.eq_def]
  split
  · rename_i rest
    exact absurd rfl (h 34 rest rfl)
  · rfl


theorem pieceSep_space (x : PyStr) (c0 : Nat)
    (hc0 : isStrWs c0 = false) (hc44 : c0 ≠ 44) :
    pieceSep (32 :: c0 :: x) = (c0 :: x, 2) := by
  have hw : runLength isStrWs (32 :: c0 :: x) = 1 := by
    rw [runLength, show isStrWs 32 = true from rfl]
    simp only [if_true]
    rw [runLength, hc0]
    simp
  simp only [pieceSep, hw]
  simp only [List.drop_succ_cons, List.drop_zero]
  split
  · rename_i rr heq
    injection heq with h1 _
    exact absurd h1 hc44
  · rfl

theorem pieceKey_bare (c0 : Nat) (k' x : PyStr)
    (hc0 : isKeyChar c0 = true) (hc34 : c0 ≠ 34)
    (hk : ∀ c ∈ k', isKeyChar c = true)
    (hx : ∀ c t, x = c :: t → isKeyChar c = false) :
    pieceKey ((c0 :: k') ++ x) = some (c0 :: k', k'.length + 1) := by
  have hqm : quotedMatch ((c0 :: k') ++ x) = none :=
    quotedMatch_not_quote (fun c t hct => by
      rw [List.cons_append] at hct
      injection hct with h1 _
      rw [← h1]
      exact hc34)
  have hrl : runLength isKeyChar ((c0 :: k') ++ x) = k'.length + 1 := by
    rw [runLength_append (fun c hc => by
      rcases List.mem_cons.mp hc with rfl | h
      · exact hc0
      · exact hk c h) x, runLength_stop hx]
    simp
  simp only [pieceKey, hqm, hrl]
  simp only [Nat.succ_ne_zero, if_false]
  rw [show k'.length + 1 = (c0 :: k').length from by simp]
  rw [List.take_left]

theorem pieceValue_quoted (n tail : PyStr)
    (hn : ∀ c ∈ n, c ≠ 34 ∧ c ≠ 92) :
    pieceValue (61 :: 34 :: (n ++ 34 :: tail)) =
      (none, none, some (34 :: (n ++ [34])), n.length + 3) := by
  have hqa : quotedAux (n ++ 34 :: tail) = some (n.length + 1) :=
    quotedAux_append hn tail
  have hmv : matchValue (34 :: (n ++ 34 :: tail)) =
      some (34 :: (n ++ [34]), n.length + 2) := by
    simp only [matchValue, quotedMatch, hqa]
    rw [show Option.map (fun m => m + 1) (some (n.length + 1)) =
      some (n.length + 2) from rfl]
    try dsimp only
    rw [take_quoted]
  simp only [pieceValue]
  rw [show runLength isStrWs (34 :: (n ++ 34 :: tail)) = 0 from rfl]
  simp only [List.drop_zero]
  rw [hmv]
  try dsimp only
  have harith : 1 + 0 + (n.length + 2) = n.length + 3 := by omega
  rw [harith]

theorem matchPiece_quoted_param (c0 : Nat) (k' n tail : PyStr)
    (hc0 : isKeyChar c0 = true ∧ c0 ≠ 34 ∧ c0 ≠ 44)
    (hk : ∀ c ∈ k', isKeyChar c = true)
    (hn : ∀ c ∈ n, c ≠ 34 ∧ c ≠ 92)
    (htail : ∀ c t, tail = c :: t → isStrWs c = false) :
    matchPiece (59 :: 32 :: ((c0 :: k') ++ 61 :: 34 :: (n ++ 34 :: tail))) =
      some ⟨c0 :: k', none, none, none, some (34 :: (n ++ [34])),
        k'.length + n.length + 6⟩ := by
  have hsep : pieceSep
      (32 :: ((c0 :: k') ++ 61 :: 34 :: (n ++ 34 :: tail))) =
      ((c0 :: k') ++ 61 :: 34 :: (n ++ 34 :: tail), 2) := by
    rw [List.cons_append]
    exact pieceSep_space _ c0 (keyChar_not_ws hc0.1) hc0.2.2
  have hkey : pieceKey ((c0 :: k') ++ 61 :: 34 :: (n ++ 34 :: tail)) =
      some (c0 :: k', k'.length + 1) :=
    pieceKey_bare c0 k' _ hc0.1 hc0.2.1 hk (fun c t hct => by
      injection hct with h1 _
      rw [← h1]
      decide)
  have hdrop : ((c0 :: k') ++ 61 :: 34 :: (n ++ 34 :: tail)).drop
      (k'.length + 1) = 61 :: 34 :: (n ++ 34 :: tail) := by
    rw [show k'.length + 1 = (c0 :: k').length from by simp]
    exact List.drop_left _ _
  have hval := pieceValue_quoted n tail hn
  have hdrop2 : (61 :: 34 :: (n ++ 34 :: tail)).drop (n.length + 3) =
      tail := by
    rw [show (61 : Nat) :: 34 :: (n ++ 34 :: tail) =
      ((61 :: 34 :: n) ++ [34]) ++ tail from by simp]
    rw [show n.length + 3 = ((61 :: 34 :: n) ++ [34]).length from by simp]
    exact List.drop_left _ _
  have hw3 : runLength isStrWs (61 :: 34 :: (n ++ 34 :: tail)) = 0 := rfl
  have hw4 : runLength isStrWs tail = 0 := runLength_stop htail
  simp only [matchPiece, hsep]
  try dsimp only
  rw [hkey]
  try dsimp only
  rw [hdrop]
  rw [show pieceCount (61 :: 34 :: (n ++ 34 :: tail)) = (none, 0) from rfl]
  try dsimp only
  simp only [List.drop_zero]
  rw [hw3]
  simp only [List.drop_zero]
  rw [hval]
  try dsimp only
  rw [hdrop2, hw4]
  simp only [Option.some.injEq, PieceM.mk.injEq, and_true, true_and]
  omega

theorem pieceStep_quoted (key : PyStr) (n : PyStr) (L : Nat)
    (options : List (PyStr × Option PyStr)) (contEnc : Option PyStr)
    (hkey1 : unquoteHeaderValue key = key) (hkey2 : strLower key = key)
    (hn : ∀ c ∈ n, c ≠ 34 ∧ c ≠ 92) :
    pieceStep ⟨key, none, none, none, some (34 :: (n ++ [34])), L⟩
      options contEnc = Except.ok (dictSet options key (some n)) := by
  simp only [pieceStep, hkey1, hkey2]
  rw [show pieceEncoding
    ⟨key, none, none, none, some (34 :: (n ++ [34])), L⟩ contEnc =
    none from rfl]
  try dsimp only
  rw [unquote_quoted hn]
  rfl

theorem matchStartMime_formdata (w : PyStr) :
    matchStartMime (44 :: (S ("form-data") ++ 59 :: 32 :: w)) =
      some (S ("form-data"), some (59 :: 32 :: w)) := by
  have hhd : ∀ c t, S ("form-data") ++ 59 :: 32 :: w = c :: t → c = 102 := by
    intro c t hct
    have h1 : (S ("form-data") ++ 59 :: 32 :: w).head? = some 102 := rfl
    rw [hct] at h1
    simp at h1
    omega
  have hw0 : runLength isStrWs (S ("form-data") ++ 59 :: 32 :: w) = 0 :=
    runLength_stop (fun c t hct => by rw [hhd c t hct]; decide)
  have ht : runLength (fun c => !(isStrWs c || c = 59 || c = 44))
      (S ("form-data") ++ 59 :: 32 :: w) = 9 := by
    rw [runLength_append (by decide) _, runLength_stop (fun c t hct => by
      injection hct with h1 _
      rw [← h1]
      decide)]
    rfl
  have htake : (S ("form-data") ++ 59 :: 32 :: w).take 9 = S ("form-data") := by
    rw [show (9 : Nat) = (S ("form-data")).length from rfl]
    exact List.take_left _ _
  have hdrop : (S ("form-data") ++ 59 :: 32 :: w).drop 9 = 59 :: 32 :: w := by
    rw [show (9 : Nat) = (S ("form-data")).length from rfl]
    exact List.drop_left _ _
  simp only [matchStartMime, hw0, List.drop_zero, ht, htake, hdrop]
  simp

theorem drop_piece (c0 : Nat) (k' n tail : PyStr) :
    (59 :: 32 :: ((c0 :: k') ++ 61 :: 34 :: (n ++ 34 :: tail))).drop
      (k'.length + n.length + 6) = tail := by
  rw [show 59 :: 32 :: ((c0 :: k') ++ 61 :: 34 :: (n ++ 34 :: tail)) =
    ((59 :: 32 :: (c0 :: k')) ++ (61 :: 34 :: n) ++ [34]) ++ tail from by
      simp]
  rw [show k'.length + n.length + 6 =
    ((59 :: 32 :: (c0 :: k')) ++ (61 :: 34 :: n) ++ [34]).length from by
      simp
      omega]
  exact List.drop_left _ _

theorem parsePieces_step (fuel : Nat) (c0 : Nat) (k' n tail : PyStr)
    (opts : List (PyStr × Option PyStr)) (ce : Option PyStr)
    (hc0 : isKeyChar c0 = true ∧ c0 ≠ 34 ∧ c0 ≠ 44)
    (hk : ∀ c ∈ k', isKeyChar c = true)
    (hn : ∀ c ∈ n, c ≠ 34 ∧ c ≠ 92)
    (htail : ∀ c t, tail = c :: t → isStrWs c = false)
    (hu : unquoteHeaderValue (c0 :: k') = c0 :: k')
    (hs : strLower (c0 :: k') = c0 :: k') :
    parsePieces (fuel + 1)
      (59 :: 32 :: ((c0 :: k') ++ 61 :: 34 :: (n ++ 34 :: tail))) opts ce =
      parsePieces fuel tail (dictSet opts (c0 :: k') (some n)) none := by
  simp only [parsePieces]
  rw [matchPiece_quoted_param c0 k' n tail hc0 hk hn htail]
  try dsimp only
  rw [pieceStep_quoted (c0 :: k') n _ opts ce hu hs hn]
  try dsimp only
  rw [show pieceContEnc ⟨c0 :: k', none, none, none,
    some (34 :: (n ++ [34])), k'.length + n.length + 6⟩ ce = none from rfl]
  rw [drop_piece]

theorem parseOptionsHeader_cd_none (nm : PyStr)
    (hnm : ∀ c ∈ nm, c < 256 ∧ c ≠ 34 ∧ c ≠ 92 ∧ c ≠ 13 ∧ c ≠ 10) :
    parseOptionsHeader
      (some (S ("form-data; name=") ++ [34] ++ nm ++ [34] ++ [])) =
      Except.ok (S ("form-data"), [(S ("name"), some nm)]) := by
  have hlit : S ("form-data; name=") ≠ [] := by decide
  have hne : S ("form-data; name=") ++ [34] ++ nm ++ [34] ++ [] ≠ [] := by
    simp [hlit]
  simp only [parseOptionsHeader]
  rw [if_neg hne]
  have hten : ∀ c ∈ S ("form-data; name=") ++ [34] ++ nm ++ [34] ++ [],
      (if c = 10 then 44 else c) = c := by
    intro c hc
    apply if_neg
    simp only [List.append_nil, List.mem_append, List.mem_singleton] at hc
    rcases hc with ((h | rfl) | h) | rfl
    · have : ∀ x ∈ S ("form-data; name="), x ≠ 10 := by decide
      exact this c h
    · omega
    · exact (hnm c h).2.2.2.2
    · omega
  rw [List.map_congr_left hten, List.map_id']
  have hshape : S ("form-data; name=") ++ [34] ++ nm ++ [34] ++ [] =
      S ("form-data") ++ 59 :: 32 ::
        ((110 :: [97, 109, 101]) ++ 61 :: 34 :: (nm ++ 34 :: [])) := by
    have h1 : S ("form-data; name=") =
        S ("form-data") ++ [59, 32, 110, 97, 109, 101, 61] := by decide
    rw [h1]
    simp
  rw [hshape, matchStartMime_formdata]
  try dsimp only
  rw [parsePieces_step _ 110 [97, 109, 101] nm [] [] none
    (by decide) (by decide)
    (fun c hc => ⟨(hnm c hc).2.1, (hnm c hc).2.2.1⟩)
    (fun c t hct => by cases hct) (by decide) (by decide)]
  rw [show (59 :: 32 ::
      ((110 :: [97, 109, 101]) ++ 61 :: 34 :: (nm ++ 34 :: []))).length =
    (32 :: ((110 :: [97, 109, 101]) ++ 61 :: 34 :: (nm ++ 34 :: []))).length
      + 1 from rfl]
  simp only [parsePieces]
  rfl

theorem parseOptionsHeader_cd_some (nm f : PyStr)
    (hnm : ∀ c ∈ nm, c < 256 ∧ c ≠ 34 ∧ c ≠ 92 ∧ c ≠ 13 ∧ c ≠ 10)
    (hf : ∀ c ∈ f, c < 256 ∧ c ≠ 34 ∧ c ≠ 92 ∧ c ≠ 13 ∧ c ≠ 10) :
    parseOptionsHeader
      (some (S ("form-data; name=") ++ [34] ++ nm ++ [34] ++
        (S ("; filename=") ++ [34] ++ f ++ [34]))) =
      Except.ok (S ("form-data"),
        [(S ("name"), some nm), (S ("filename"), some f)]) := by
  have hlit : S ("form-data; name=") ≠ [] := by decide
  have hne : S ("form-data; name=") ++ [34] ++ nm ++ [34] ++
      (S ("; filename=") ++ [34] ++ f ++ [34]) ≠ [] := by
    simp [hlit]
  simp only [parseOptionsHeader]
  rw [if_neg hne]
  have hten : ∀ c ∈ S ("form-data; name=") ++ [34] ++ nm ++ [34] ++
      (S ("; filename=") ++ [34] ++ f ++ [34]),
      (if c = 10 then 44 else c) = c := by
    intro c hc
    apply if_neg
    simp only [List.mem_append, List.mem_singleton] at hc
    rcases hc with (((h | rfl) | h) | rfl) | ((h | rfl) | h) | rfl
    · have : ∀ x ∈ S ("form-data; name="), x ≠ 10 := by decide
      exact this c h
    · omega
    · exact (hnm c h).2.2.2.2
    · omega
    · have : ∀ x ∈ S ("; filename="), x ≠ 10 := by decide
      exact this c h
    · omega
    · exact (hf c h).2.2.2.2
    · omega
  rw [List.map_congr_left hten, List.map_id']
  have hshape : S ("form-data; name=") ++ [34] ++ nm ++ [34] ++
      (S ("; filename=") ++ [34] ++ f ++ [34]) =
      S ("form-data") ++ 59 :: 32 ::
        ((110 :: [97, 109, 101]) ++ 61 :: 34 :: (nm ++ 34 ::
          (59 :: 32 :: ((102 :: [105, 108, 101, 110, 97, 109, 101]) ++
            61 :: 34 :: (f ++ 34 :: []))))) := by
    have h1 : S ("form-data; name=") =
        S ("form-data") ++ [59, 32, 110, 97, 109, 101, 61] := by decide
    have h2 : S ("; filename=") =
        [59, 32, 102, 105, 108, 101, 110, 97, 109, 101, 61] := by decide
    rw [h1, h2]
    simp
  rw [hshape, matchStartMime_formdata]
  try dsimp only
  rw [parsePieces_step _ 110 [97, 109, 101] nm _ [] none
    (by decide) (by decide)
    (fun c hc => ⟨(hnm c hc).2.1, (hnm c hc).2.2.1⟩)
    (fun c t hct => by injection hct with h1 _; rw [← h1]; decide)
    (by decide) (by decide)]
  rw [show (59 :: 32 ::
      ((110 :: [97, 109, 101]) ++ 61 :: 34 :: (nm ++ 34 ::
        (59 :: 32 :: ((102 :: [105, 108, 101, 110, 97, 109, 101]) ++
          61 :: 34 :: (f ++ 34 :: [])))))).length =
    (32 :: ((110 :: [97, 109, 101]) ++ 61 :: 34 :: (nm ++ 34 ::
      (59 :: 32 :: ((102 :: [105, 108, 101, 110, 97, 109, 101]) ++
        61 :: 34 :: (f ++ 34 :: [])))))).length + 1 from rfl]
  rw [parsePieces_step _ 102 [105, 108, 101, 110, 97, 109, 101] f [] _ none
    (by decide) (by decide)
    (fun c hc => ⟨(hf c hc).2.1, (hf c hc).2.2.1⟩)
    (fun c t hct => by cases hct) (by decide) (by decide)]
  rw [show (32 :: ((110 :: [97, 109, 101]) ++ 61 :: 34 :: (nm ++ 34 ::
      (59 :: 32 :: ((102 :: [105, 108, 101, 110, 97, 109, 101]) ++
        61 :: 34 :: (f ++ 34 :: [])))))).length =
    (((110 :: [97, 109, 101]) ++ 61 :: 34 :: (nm ++ 34 ::
      (59 :: 32 :: ((102 :: [105, 108, 101, 110, 97, 109, 101]) ++
        61 :: 34 :: (f ++ 34 :: []))))).length) + 1 from rfl]
  simp only [parsePieces]
  rw [show dictSet (dictSet [] (110 :: [97, 109, 101]) (some nm))
      (102 :: [105, 108, 101, 110, 97, 109, 101]) (some f) =
    [(110 :: [97, 109, 101], some nm),
     (102 :: [105, 108, 101, 110, 97, 109, 101], some f)] from by
      simp [dictSet]]
  rfl


end SM

namespace SM

/-! ## The decoder's stage steps on a canonical message -/

theorem cdValue_ne_nil (p : PartDesc) : cdValue p ≠ [] := by
  intro h
  have h102 : (cdValue p).head? = some 102 := rfl
  rw [h] at h102
  cases h102

theorem parseOptionsHeader_cdValue {bnd : Bytes} {p : PartDesc}
    (hp : WfPart bnd p) :
    parseOptionsHeader (some (cdValue p)) =
      Except.ok (S ("form-data"), cdExtra p) := by
  cases hf : p.filename with
  | none =>
    simp only [cdValue, hf, cdExtra]
    exact parseOptionsHeader_cd_none p.name (fun c hc => hp.nameOk c hc)
  | some f =>
    simp only [cdValue, hf, cdExtra]
    exact parseOptionsHeader_cd_some p.name f
      (fun c hc => hp.nameOk c hc) (fun c hc => hp.filenameOk f hf c hc)

theorem contentDispositionOf_canonical (p : PartDesc) :
    contentDispositionOf (partHeaders p) = some (cdValue p) := by
  have h1 : dictGet (partHeaders p) (S ("Content-Disposition")) =
      some (cdValue p) := by
    rw [partHeaders]
    simp [dictGet]
  rw [contentDispositionOf, h1]
  try dsimp only
  rw [if_neg (cdValue_ne_nil p)]
  try dsimp only
  rw [if_neg (cdValue_ne_nil p)]

theorem delimOf_length (bnd : Bytes) (final : Bool) :
    (delimOf bnd final).length = bnd.length + (if final then 8 else 6) := by
  cases final <;> simp [delimOf]

theorem linesBytes_eq_core :
    ∀ (ls : List Bytes) (l : Bytes),
      linesBytes (l :: ls) = linesCore (l :: ls) ++ [13, 10] := by
  intro ls
  induction ls with
  | nil => intro l; rfl
  | cons l2 ls2 ih =>
    intro l
    rw [show linesBytes (l :: l2 :: ls2) =
      l ++ 13 :: 10 :: linesBytes (l2 :: ls2) from rfl]
    rw [ih l2]
    rw [show linesCore (l :: l2 :: ls2) =
      l ++ 13 :: 10 :: linesCore (l2 :: ls2) from rfl]
    simp

theorem headerBlock_flat (p : PartDesc) :
    headerBlock p = (S ("Content-Disposition: ") ++ cdValue p) ++
      13 :: 10 :: (linesBytes (p.extraHeaders.map rawLine) ++ [13, 10]) := by
  rw [headerBlock, partLines]
  cases hE : p.extraHeaders.map rawLine with
  | nil =>
    rw [show linesCore [S ("Content-Disposition: ") ++ cdValue p] =
      S ("Content-Disposition: ") ++ cdValue p from rfl]
    simp [linesBytes]
  | cons l2 ls2 =>
    rw [show linesCore ((S ("Content-Disposition: ") ++ cdValue p) ::
        l2 :: ls2) = (S ("Content-Disposition: ") ++ cdValue p) ++
        13 :: 10 :: linesCore (l2 :: ls2) from rfl]
    rw [linesBytes_eq_core ls2 l2]
    simp

end SM

namespace SM

theorem nextEvent_part_canonical {bnd : Bytes} {p : PartDesc}
    (hp : WfPart bnd p) (X : Bytes) (ms : Option Nat) :
    nextEvent ⟨headerBlock p ++ X, ms, Stage.part, bnd, 0⟩ =
      Except.ok (some (partEvent p), ⟨X, ms, Stage.data, bnd, 0⟩) := by
  have hwf2 : ∀ l ∈ partLines p, l ≠ [] ∧ ∀ c ∈ l, c ≠ 13 ∧ c ≠ 10 :=
    fun l hl => ⟨(partLines_wf hp l hl).1, (partLines_wf hp l hl).2.1⟩
  have hsearch : reSearch blankAt (headerBlock p ++ X) 0 =
      some ((linesCore (partLines p)).length, 4) := by
    rw [headerBlock, List.append_assoc]
    exact blank_search_core (partLines p) X hwf2
  have htake : (headerBlock p ++ X).take (linesCore (partLines p)).length =
      linesCore (partLines p) := by
    rw [headerBlock, List.append_assoc]
    exact List.take_left _ _
  have hdrop : (headerBlock p ++ X).drop
      ((linesCore (partLines p)).length + 4) = X := by
    rw [show (linesCore (partLines p)).length + 4 =
      (headerBlock p).length from by rw [headerBlock]; simp]
    exact List.drop_left _ _
  simp only [nextEvent]
  try dsimp only
  simp only [processPart]
  try dsimp only
  rw [hsearch]
  try dsimp only
  rw [htake, parseHeaders_canonical hp]
  try dsimp only
  rw [hdrop]
  rw [contentDispositionOf_canonical p]
  try dsimp only
  rw [parseOptionsHeader_cdValue hp]
  try dsimp only
  cases hf : p.filename with
  | none =>
    simp only [cdExtra, hf]
    rw [show dictGet [(S ("name"), some p.name)] (S ("filename")) =
      none from by
        simp only [dictGet]
        rw [if_neg (by decide)]]
    try dsimp only
    rw [show extraGetName [(S ("name"), some p.name)] = some p.name from by
      rw [extraGetName]
      simp [dictGet]]
    simp only [partEvent, hf]
  | some f =>
    simp only [cdExtra, hf]
    rw [show dictGet [(S ("name"), some p.name), (S ("filename"), some f)]
      (S ("filename")) = some (some f) from by
        simp only [dictGet]
        rw [if_neg (by decide)]
        simp]
    try dsimp only
    rw [show extraGetName [(S ("name"), some p.name),
      (S ("filename"), some f)] = some p.name from by
        rw [extraGetName]
        simp [dictGet]]
    simp only [partEvent, hf]

end SM

namespace SM

theorem nextEvent_data_canonical (bnd body tail : Bytes) (final : Bool)
    (ms : Option Nat) (sp : Nat)
    (hbndOk : ∀ c ∈ bnd, c ≠ 13 ∧ c ≠ 10)
    (hbody : containsSub body ([45, 45] ++ bnd) = false) :
    nextEvent ⟨body ++ (delimOf bnd final ++ tail), ms, Stage.data, bnd, sp⟩ =
      Except.ok (some (Event.data body false),
        ⟨tail, ms, (if final then Stage.epilogue else Stage.part),
          bnd, sp⟩) := by
  have hcontains : containsSub (body ++ (delimOf bnd final ++ tail))
      ([45, 45] ++ bnd) = true := by
    apply startsWith_drop_containsSub (k := body.length + 2)
    have hsh : (body ++ (delimOf bnd final ++ tail)).drop (body.length + 2) =
        ([45, 45] ++ bnd) ++
          ((if final then 45 :: 45 :: [13, 10] else [13, 10]) ++ tail) := by
      rw [show body.length + 2 = (body ++ [13, 10]).length from by simp]
      rw [show body ++ (delimOf bnd final ++ tail) = (body ++ [13, 10]) ++
        (([45, 45] ++ bnd) ++
          ((if final then 45 :: 45 :: [13, 10] else [13, 10]) ++ tail))
        from by cases final <;> simp [delimOf]]
      exact List.drop_left _ _
    rw [hsh]
    exact startsWith_append_self _ _
  have hsearch := boundarySearch_junction bnd body tail final hbndOk hbody
  have htake : (body ++ (delimOf bnd final ++ tail)).take body.length =
      body := List.take_left _ _
  have hdrop : (body ++ (delimOf bnd final ++ tail)).drop
      (body.length + (bnd.length + (if final then 8 else 6))) = tail := by
    rw [show body.length + (bnd.length + (if final then 8 else 6)) =
      (body ++ delimOf bnd final).length from by
        rw [List.length_append, delimOf_length]]
    rw [← List.append_assoc]
    exact List.drop_left _ _
  simp only [nextEvent]
  try dsimp only
  simp only [processData]
  try dsimp only
  rw [hcontains]
  try dsimp only
  rw [if_pos rfl]
  rw [hsearch]
  try dsimp only
  rw [htake, hdrop]

end SM

namespace SM

theorem nextEvent_preamble_canonical (bnd pre tail : Bytes) (final : Bool)
    (ms : Option Nat)
    (hbndOk : ∀ c ∈ bnd, c ≠ 13 ∧ c ≠ 10)
    (hpre : containsSub pre ([45, 45] ++ bnd) = false) :
    nextEvent ⟨pre ++ (delimOf bnd final ++ tail), ms,
      Stage.preamble, bnd, 0⟩ =
      Except.ok (some (Event.preamble pre),
        ⟨tail, ms, (if final then Stage.epilogue else Stage.part),
          bnd, 0⟩) := by
  have hsearch := preambleSearch_junction bnd pre tail final hbndOk hpre
  have htake : (pre ++ (delimOf bnd final ++ tail)).take pre.length =
      pre := List.take_left _ _
  have hdrop : (pre ++ (delimOf bnd final ++ tail)).drop
      (pre.length + (bnd.length + (if final then 8 else 6))) = tail := by
    rw [show pre.length + (bnd.length + (if final then 8 else 6)) =
      (pre ++ delimOf bnd final).length from by
        rw [List.length_append, delimOf_length]]
    rw [← List.append_assoc]
    exact List.drop_left _ _
  simp only [nextEvent]
  try dsimp only
  simp only [processPreamble]
  try dsimp only
  rw [hsearch]
  try dsimp only
  rw [htake, hdrop]

theorem drain_tail (bnd : Bytes)
    (hbndOk : ∀ c ∈ bnd, c ≠ 13 ∧ c ≠ 10) :
    ∀ (ps : List PartDesc) (epi : Bytes) (ms : Option Nat),
      (∀ p ∈ ps, WfPart bnd p) →
      drain (2 * ps.length + 2)
        ⟨tailBytes bnd ps epi, ms,
          (if ps.isEmpty then Stage.epilogue else Stage.part), bnd, 0⟩ =
        Except.ok (partsEvents ps ++ [Event.epilogue epi],
          ⟨[], ms, Stage.complete, bnd, 0⟩, true) := by
  intro ps
  induction ps with
  | nil =>
    intro epi ms _
    rw [show 2 * ([] : List PartDesc).length + 2 = 1 + 1 from by simp]
    rw [drain_succ]
    rw [show nextEvent ⟨tailBytes bnd [] epi, ms,
      (if ([] : List PartDesc).isEmpty then Stage.epilogue else Stage.part),
      bnd, 0⟩ = Except.ok (some (Event.epilogue epi),
        ⟨[], ms, Stage.complete, bnd, 0⟩) from rfl]
    try dsimp only
    rw [drain_succ]
    rfl
  | cons p ps ih =>
    intro epi ms hps
    have hp := hps p (by simp)
    have hshape : tailBytes bnd (p :: ps) epi =
        headerBlock p ++
          (p.body ++ (delimOf bnd ps.isEmpty ++ tailBytes bnd ps epi)) := by
      rw [tailBytes]
      simp [List.append_assoc]
    rw [show 2 * (p :: ps).length + 2 = (2 * ps.length + 3) + 1 from by
      simp
      omega]
    rw [drain_succ]
    rw [show (if (p :: ps).isEmpty then Stage.epilogue else Stage.part) =
      Stage.part from rfl]
    rw [hshape, nextEvent_part_canonical hp _ ms]
    try dsimp only
    rw [show (2 * ps.length + 3 : Nat) = (2 * ps.length + 2) + 1 from rfl]
    rw [drain_succ]
    rw [nextEvent_data_canonical bnd p.body (tailBytes bnd ps epi)
      ps.isEmpty ms 0 hbndOk hp.bodyOk]
    try dsimp only
    rw [ih epi ms (fun q hq => hps q (List.mem_cons_of_mem _ hq))]
    try dsimp only
    rw [partsEvents]
    rfl

end SM

namespace SM

theorem assemble_ne_nil (m : MessageDesc) : assemble m ≠ [] := by
  rw [assemble]
  simp [delimOf]

theorem decode_canonical {m : MessageDesc} (hm : WfMessage m) :
    decodeChunks (2 * m.parts.length + 3) (mkDecoder m.boundary none)
      [assemble m] =
      Except.ok (canonEvents m,
        ⟨[], none, Stage.complete, m.boundary, 0⟩, true) := by
  have hCall : decoderCall (mkDecoder m.boundary none) (some (assemble m)) =
      (none, ⟨assemble m, none, Stage.preamble, m.boundary, 0⟩) := by
    simp [decoderCall, mkDecoder, assemble_ne_nil m]
  rw [decodeChunks_cons, hCall]
  try dsimp only
  rw [show (2 * m.parts.length + 3 : Nat) = (2 * m.parts.length + 2) + 1
    from rfl]
  rw [drain_succ]
  rw [show assemble m = m.pre ++ (delimOf m.boundary m.parts.isEmpty ++
    tailBytes m.boundary m.parts m.epi) from by
      rw [assemble, List.append_assoc]]
  rw [nextEvent_preamble_canonical m.boundary m.pre
    (tailBytes m.boundary m.parts m.epi) m.parts.isEmpty none
    hm.bndOk hm.preOk]
  try dsimp only
  rw [drain_tail m.boundary hm.bndOk m.parts m.epi none hm.partsOk]
  try dsimp only
  rw [show decodeChunks ((2 * m.parts.length + 2) + 1)
    ⟨[], none, Stage.complete, m.boundary, 0⟩ [] =
    Except.ok ([], ⟨[], none, Stage.complete, m.boundary, 0⟩, true)
    from rfl]
  try dsimp only
  rw [canonEvents]
  simp

end SM

namespace SM

/-! ## The encoder on a canonical event sequence -/

theorem latin1Encode_ok {s : PyStr} (h : ∀ c ∈ s, c < 256) :
    latin1Encode s = Except.ok s := by
  have hall : s.all (fun c => decide (c < 256)) = true := by
    rw [List.all_eq_true]
    intro x hx
    simpa using h x hx
  rw [latin1Encode, if_pos hall]

theorem encodeHeaders_extras :
    ∀ (l : List (PyStr × PyStr)),
      (∀ nv ∈ l, (∀ c ∈ nv.1, c < 256) ∧ (∀ c ∈ nv.2, c < 256) ∧
        strLower nv.1 ≠ S ("content-disposition")) →
      encodeHeaders l = Except.ok (linesBytes (l.map rawLine)) := by
  intro l
  induction l with
  | nil => intro _; rfl
  | cons nv l ih =>
    intro h
    obtain ⟨n0, v0⟩ := nv
    obtain ⟨h1, h2, h3⟩ := h (n0, v0) (by simp)
    rw [encodeHeaders, ih (fun x hx => h x (List.mem_cons_of_mem _ hx))]
    try dsimp only
    rw [if_neg h3]
    rw [latin1Encode_ok (by
      intro c hc
      rcases List.mem_append.mp hc with hc1 | hc1
      · rcases List.mem_append.mp hc1 with hc2 | hc2
        · rcases List.mem_append.mp hc2 with hc3 | hc3
          · exact h1 c hc3
          · have : ∀ x ∈ S (": "), x < 256 := by decide
            exact this c hc3
        · exact h2 c hc2
      · have hc2 : c = 13 ∨ c = 10 := by simpa using hc1
        rcases hc2 with rfl | rfl <;> omega)]
    try dsimp only
    rw [List.map_cons]
    rw [linesBytes_eq_core]
    rw [show linesCore (rawLine (n0, v0) :: List.map rawLine l) ++ [13, 10] =
      linesBytes (rawLine (n0, v0) :: List.map rawLine l) from
      (linesBytes_eq_core _ _).symm]
    rw [show linesBytes (rawLine (n0, v0) :: List.map rawLine l) =
      rawLine (n0, v0) ++ 13 :: 10 :: linesBytes (List.map rawLine l)
      from rfl]
    rw [show S (": ") = [58, 32] from by decide]
    simp [rawLine]

theorem encodeHeaders_canonical {bnd : Bytes} {p : PartDesc}
    (hp : WfPart bnd p) :
    encodeHeaders (partHeaders p) =
      Except.ok (linesBytes (p.extraHeaders.map rawLine)) := by
  rw [partHeaders, encodeHeaders]
  rw [encodeHeaders_extras p.extraHeaders (fun nv hnv =>
    ⟨fun c hc => (hp.hdrNameChars nv hnv c hc).1,
     fun c hc => (hp.hdrValChars nv hnv c hc).1,
     hp.hdrNameNotCD nv hnv⟩)]
  try dsimp only
  rw [if_pos (by decide : strLower (S ("Content-Disposition")) =
    S ("content-disposition"))]

end SM

namespace SM

theorem sendEvent_part {bnd : Bytes} {st : Stage}
    (hst : st = Stage.part ∨ st = Stage.data) {p : PartDesc}
    (hp : WfPart bnd p) :
    sendEvent ⟨bnd, st⟩ (partEvent p) =
      Except.ok (delimOf bnd false ++ headerBlock p,
        ⟨bnd, Stage.data⟩) := by
  cases hf : p.filename with
  | none =>
    simp only [partEvent, hf, sendEvent]
    rcases hst with rfl | rfl <;>
    · split
      · try dsimp only
        rw [latin1Encode_ok (fun c hc => (hp.nameOk c hc).1)]
        try dsimp only
        rw [encodeHeaders_canonical hp]
        try dsimp only
        rw [show S ("Content-Disposition: form-data; name=") =
          S ("Content-Disposition: ") ++ S ("form-data; name=") from by
            decide]
        rw [headerBlock_flat]
        simp only [cdValue, hf]
        simp [delimOf]
      · next hcond => exact (hcond rfl).elim
  | some f =>
    simp only [partEvent, hf, sendEvent]
    rcases hst with rfl | rfl <;>
    · split
      · try dsimp only
        rw [latin1Encode_ok (fun c hc => (hp.nameOk c hc).1)]
        try dsimp only
        rw [latin1Encode_ok (fun c hc => (hp.filenameOk f hf c hc).1)]
        try dsimp only
        rw [encodeHeaders_canonical hp]
        try dsimp only
        rw [show S ("Content-Disposition: form-data; name=") =
          S ("Content-Disposition: ") ++ S ("form-data; name=") from by
            decide]
        rw [headerBlock_flat]
        simp only [cdValue, hf]
        simp [delimOf]
      · next hcond => exact (hcond rfl).elim

theorem encode_tail (bnd : Bytes) :
    ∀ (ps : List PartDesc) (epi : Bytes) (st : Stage),
      (st = Stage.part ∨ st = Stage.data) →
      (∀ p ∈ ps, WfPart bnd p) →
      encodeEvents ⟨bnd, st⟩ (partsEvents ps ++ [Event.epilogue epi]) =
        Except.ok (delimOf bnd ps.isEmpty ++ tailBytes bnd ps epi) := by
  intro ps
  induction ps with
  | nil =>
    intro epi st _ _
    simp only [partsEvents, List.nil_append]
    rw [show encodeEvents ⟨bnd, st⟩ [Event.epilogue epi] =
      Except.ok (([13, 10, 45, 45] ++ bnd ++ [45, 45, 13, 10] ++ epi) ++ [])
      from rfl]
    rw [show tailBytes bnd [] epi = epi from rfl]
    simp [delimOf]
  | cons p ps ih =>
    intro epi st hst hps
    have hp := hps p (by simp)
    simp only [partsEvents, List.cons_append]
    simp only [encodeEvents]
    rw [sendEvent_part hst hp]
    try dsimp only
    rw [show sendEvent ⟨bnd, Stage.data⟩ (Event.data p.body false) =
      Except.ok (p.body, ⟨bnd, Stage.data⟩) from rfl]
    try dsimp only
    rw [ih epi Stage.data (Or.inr rfl)
      (fun q hq => hps q (List.mem_cons_of_mem _ hq))]
    try dsimp only
    rw [show (p :: ps).isEmpty = false from rfl, tailBytes]
    simp [List.append_assoc]

theorem encode_canonical {m : MessageDesc} (hm : WfMessage m) :
    encodeEvents (mkEncoder m.boundary) (canonEvents m) =
      Except.ok (assemble m) := by
  rw [canonEvents]
  simp only [encodeEvents]
  rw [show sendEvent (mkEncoder m.boundary) (Event.preamble m.pre) =
    Except.ok (m.pre, ⟨m.boundary, Stage.part⟩) from rfl]
  try dsimp only
  rw [encode_tail m.boundary m.parts m.epi Stage.part (Or.inl rfl)
    hm.partsOk]
  try dsimp only
  rw [assemble, List.append_assoc]

end SM

namespace SM

/-- A small concrete canonical message for the C1 witness: boundary `b`,
empty preamble, one field named `x` with body `hi`, empty epilogue. -/
def c1Msg : MessageDesc := ⟨[98], [], [⟨[120], none, [], S ("hi")⟩], []⟩

/-- C1 (amended): for every well-formed canonical multipart message fed to a
fresh decoder as a single chunk, draining all events up to and including the
`Epilogue` yields exactly the canonical event sequence (reaching the
`COMPLETE` stage with an empty buffer), and replaying that same event
sequence through a fresh encoder with the same boundary reproduces the
original message bytes exactly.  (For an arbitrary split into chunks the
round-trip can fail: the decoder emits its `Epilogue` event as soon as it
enters the epilogue stage, so epilogue bytes arriving in a later chunk are
lost, as the C1 counterexample shows.) -/
theorem c1_roundtrip_one_chunk {m : MessageDesc} (hm : WfMessage m) :
    decodeChunks (2 * m.parts.length + 3) (mkDecoder m.boundary none)
        [assemble m] =
      Except.ok (canonEvents m,
        ⟨[], none, Stage.complete, m.boundary, 0⟩, true) ∧
    encodeEvents (mkEncoder m.boundary) (canonEvents m) =
      Except.ok (assemble m) :=
  ⟨decode_canonical hm, encode_canonical hm⟩

/-- Witness for the C1 amended theorem at the concrete message `c1Msg`. -/
theorem c1_roundtrip_witness :
    decodeChunks (2 * c1Msg.parts.length + 3)
        (mkDecoder c1Msg.boundary none) [assemble c1Msg] =
      Except.ok (canonEvents c1Msg,
        ⟨[], none, Stage.complete, c1Msg.boundary, 0⟩, true) ∧
    encodeEvents (mkEncoder c1Msg.boundary) (canonEvents c1Msg) =
      Except.ok (assemble c1Msg) := by
  apply c1_roundtrip_one_chunk
  refine ⟨by decide, by decide, by decide, ?_⟩
  intro p hp
  have hpeq : p = ⟨[120], none, [], S ("hi")⟩ := by simpa [c1Msg] using hp
  subst hpeq
  refine ⟨?_, ?_, ?_, ?_, ?_, ?_, ?_, ?_, ?_, ?_⟩
  · intro c hc
    have : c = 120 := by simpa using hc
    subst this
    exact ⟨by omega, by omega, by omega, by omega, by omega⟩
  · intro f h
    cases h
  · intro nv hnv
    cases hnv
  · intro nv hnv
    cases hnv
  · intro nv hnv
    cases hnv
  · intro nv hnv
    cases hnv
  · intro nv hnv
    cases hnv
  · intro nv hnv
    cases hnv
  · exact List.nodup_nil
  · decide

end SM
